import Mathlib

/-!
# LRU cache with TTL (`lruttl.go`): shallow embedding and verified properties

The Go program keeps a `container/list` doubly linked list of `*Item` in
recency order (front = most recent) and a `map[string]*list.Element` index.

Embedding choices:

* A `*list.Element` is an address (`Addr`).  Every element owns exactly one
  `Item` (`Element.Value` is set once by `PushFront` and never reassigned), so
  the heap `mem` maps the address of an element directly to its item.
* `list` is the sequence of element addresses, front to back; the operations
  of `container/list` used by the program are modelled on it.
* `keyMap` is a finite map seen as a function `String → Option Addr`.
* `interface{}` values are `Option V` (`none` is Go's `nil`).
* `time.Time` instants and `time.Duration` are integers; `time.Now()` is an
  argument `now` of each operation; `t.Add(d)` is `t + d` and `t.After(u)` is
  `t > u`.
* The eviction callback is caller code with side effects outside the cache: it
  is a function `String → Option V → W → W` on a caller state `W`, carried in
  the field `world`.
* The mutex is not modelled: each operation is one atomic step.  Log output
  (`withLogs`) is not modelled.
* The closure handed to `time.AfterFunc` in `Set` is the operation
  `expiryCheck`; it runs later as a step of its own.
-/

namespace LruTtl

/-- Address of a heap allocated `list.Element`. -/
abbrev Addr := Nat

/-- Go `type Item struct { key string; value interface{}; expiry time.Time }`. -/
structure Item (V : Type) where
  key : String
  value : Option V
  expiry : Int
deriving DecidableEq, Repr

instance {V : Type} : Inhabited (Item V) := ⟨⟨"", none, 0⟩⟩

/-- Go `type EvictCallback func(key string, value interface{})`, acting on the
caller state `W`. -/
abbrev EvictCallback (V W : Type) := String → Option V → W → W

/-- Go `type Options struct { withLogs bool; evictCallback EvictCallback }`;
`evictCallback = none` is the nil callback. -/
structure Options (V W : Type) where
  withLogs : Bool
  evictCallback : Option (EvictCallback V W)

/-- Go `type LRU struct { keyMap; list; size; opts; sync.RWMutex }` together
with the heap of its elements (`mem`), the allocator (`next`, the first address
not yet handed out) and the caller state touched by the callback (`world`). -/
structure LRU (V W : Type) where
  keyMap : String → Option Addr
  list : List Addr
  size : Int
  opts : Options V W
  mem : Addr → Item V
  next : Addr
  world : W

/-! ### `container/list` operations used by the program -/

/-- Go `l.MoveToFront(e)`: no change when `e` is not an element of the list. -/
def moveToFront (e : Addr) (l : List Addr) : List Addr :=
  if e ∈ l then e :: l.erase e else l

/-- Go `l.MoveToBack(e)`: no change when `e` is not an element of the list. -/
def moveToBack (e : Addr) (l : List Addr) : List Addr :=
  if e ∈ l then l.erase e ++ [e] else l

/-- Go `l.Back()`: the last element, or nil. -/
def back (l : List Addr) : Option Addr := l.getLast?

/-! ### The program -/

variable {V W : Type}

/-- Go `NewLRUWithTTL`; `none` is the nil pointer.  `w` is the caller state at
construction time. -/
def NewLRUWithTTL (size : Int) (opts : Options V W) (w : W) : Option (LRU V W) :=
  if size ≤ 0 then none
  else some
    { size := size
      keyMap := fun _ => none
      list := []
      opts := opts
      mem := fun _ => default
      next := 0
      world := w }

/-- Go `removeElement`. -/
def LRU.removeElement (l : LRU V W) : Option Addr → LRU V W
  | none => l
  | some e =>
    -- remove from list
    let l1 := { l with list := l.list.erase e }
    -- remove from map
    let item := l1.mem e
    let l2 := { l1 with keyMap := fun k => if k = item.key then none else l1.keyMap k }
    -- evict element
    match l2.opts.evictCallback with
    | some cb => { l2 with world := cb item.key item.value l2.world }
    | none => l2

/-- Go `removeLastElement`. -/
def LRU.removeLastElement (l : LRU V W) : LRU V W :=
  l.removeElement (back l.list)

/-- Go `Set`, with `now` the reading of `time.Now()`.  Returns the new state
and the boolean result.  The `time.AfterFunc` call only registers
`expiryCheck key` to run later. -/
def LRU.Set (l : LRU V W) (key : String) (value : Option V) (ttl : Int) (now : Int) :
    LRU V W × Bool :=
  let expiry := now + ttl
  match l.keyMap key with
  | some elem =>
    let item := l.mem elem
    let l1 := { l with mem := Function.update l.mem elem
                          { item with value := value, expiry := expiry } }
    ({ l1 with list := moveToFront elem l1.list }, false)
  | none =>
    let item : Item V := { key := key, value := value, expiry := expiry }
    -- elem := l.list.PushFront(item)
    let elem := l.next
    let l1 := { l with mem := Function.update l.mem elem item
                       next := l.next + 1
                       list := elem :: l.list }
    -- l.keyMap[key] = elem
    let l2 := { l1 with keyMap := fun k => if k = key then some elem else l1.keyMap k }
    let l3 := if (l2.list.length : Int) > l2.size then l2.removeLastElement else l2
    (l3, true)

/-- Go `Get`, with `now` the reading of `time.Now()`.  Returns the new state,
the value and the `expired` flag. -/
def LRU.Get (l : LRU V W) (key : String) (now : Int) : LRU V W × Option V × Bool :=
  match l.keyMap key with
  | some elem =>
    let item := l.mem elem
    let expired := decide (now > item.expiry)
    if expired then
      ({ l with list := moveToBack elem l.list }, item.value, expired)
    else
      ({ l with list := moveToFront elem l.list }, item.value, expired)
  | none => (l, none, false)

/-- The closure passed to `time.AfterFunc` in `Set` (the deferred expiry check
for `key`), run at clock reading `now`. -/
def LRU.expiryCheck (l : LRU V W) (key : String) (now : Int) : LRU V W :=
  match l.keyMap key with
  | some elem =>
    let item := l.mem elem
    if now > item.expiry then { l with list := moveToBack elem l.list } else l
  | none => l

/-! ### Operation sequences -/

/-- One public operation or one firing of a deferred check, with its clock
reading. -/
inductive Op (V : Type) where
  | set (key : String) (value : Option V) (ttl : Int) (now : Int)
  | get (key : String) (now : Int)
  | check (key : String) (now : Int)

/-- State after one operation. -/
def step (s : LRU V W) : Op V → LRU V W
  | .set k v ttl now => (s.Set k v ttl now).1
  | .get k now => (s.Get k now).1
  | .check k now => s.expiryCheck k now

/-- State after a sequence of operations, applied left to right. -/
def run (s : LRU V W) (ops : List (Op V)) : LRU V W := ops.foldl step s

/-- States reachable from a freshly constructed cache. -/
def Reachable (s : LRU V W) : Prop :=
  ∃ (size : Int) (opts : Options V W) (w : W) (c : LRU V W) (ops : List (Op V)),
    NewLRUWithTTL size opts w = some c ∧ run c ops = s

/-- The items of the recency list, front to back. -/
def LRU.entries (l : LRU V W) : List (Item V) := l.list.map l.mem

/-- The keys of the recency list, front to back (what `testOrder` reads). -/
def LRU.keys (l : LRU V W) : List String := l.list.map fun a => (l.mem a).key

/-- Lock-step of index and list: the list has no repeated element, every
element was allocated, and `keyMap k` is exactly the list element whose item
has key `k`. -/
structure WF (s : LRU V W) : Prop where
  nodup : s.list.Nodup
  fresh : ∀ a ∈ s.list, a < s.next
  index : ∀ k a, s.keyMap k = some a ↔ a ∈ s.list ∧ (s.mem a).key = k

/-- Representation invariant of the cache: lock-step plus the capacity bound. -/
structure Inv (s : LRU V W) extends WF s : Prop where
  size_pos : 0 < s.size
  len_le : (s.list.length : Int) ≤ s.size

/-! ### What a sequence of operations wrote under a key -/

/-- The value argument of the operation when it is a `Set` on `k`. -/
def Op.writes (k : String) : Op V → Option (Option V)
  | .set k1 v _ _ => if k1 = k then some v else none
  | .get _ _ => none
  | .check _ _ => none

/-- The value argument of the most recent `Set` on `k` in the sequence, if the
sequence has one. -/
def lastSet (k : String) (ops : List (Op V)) : Option (Option V) :=
  ops.reverse.findSome? (Op.writes k)

/-- The operations `Set(key, value, ttl)` at clock reading `now`, one for each
`(key, value, ttl, now)` of the list, in order. -/
def setOps (items : List (String × Option V × Int × Int)) : List (Op V) :=
  items.map fun x => Op.set x.1 x.2.1 x.2.2.1 x.2.2.2

/-- Whether the operation is a `Set` (the only operation that writes items or
the index). -/
def Op.isSet : Op V → Bool
  | .set _ _ _ _ => true
  | .get _ _ => false
  | .check _ _ => false

/-! ### Sample caches (the caches of the tests) -/

/-- Options of `TestEvictCallback`: the callback stores the evicted key in the
caller's variable. -/
def evictOpts : Options Nat String := ⟨false, some fun k _ _ => k⟩

/-- The cache `NewLRUWithTTL(3, opts)` of `TestEvictCallback`. -/
def cache3 : LRU Nat String :=
  { size := 3, keyMap := fun _ => none, list := [], opts := evictOpts,
    mem := fun _ => default, next := 0, world := "" }

/-- The cache of `TestEvictCallback` after `Set a`, `Set b`, `Set c` (all at
clock reading 0, ttl in seconds). -/
def cacheABC : LRU Nat String :=
  run cache3 [.set "a" (some 12) 3 0, .set "b" (some 2) 3 0, .set "c" (some 42) 2 0]

/-- The expiry written by the operation when it is a `Set` on `k`: its clock
reading plus its ttl. -/
def Op.expires (k : String) : Op V → Option Int
  | .set k1 _ ttl now => if k1 = k then some (now + ttl) else none
  | .get _ _ => none
  | .check _ _ => none

/-- The expiry written by the most recent `Set` on `k` in the sequence, if the
sequence has one. -/
def lastExpiry (k : String) (ops : List (Op V)) : Option Int :=
  ops.reverse.findSome? (Op.expires k)

/-- The key of the operation when it is a `Set`. -/
def Op.setKey : Op V → Option String
  | .set k _ _ _ => some k
  | .get _ _ => none
  | .check _ _ => none

/-- The keys passed to `Set` in the sequence, in order, with repetitions. -/
def setKeys (ops : List (Op V)) : List String := ops.filterMap Op.setKey

/-- The number of distinct keys passed to `Set` in the sequence. -/
def distinctSetKeys (ops : List (Op V)) : Nat := (setKeys ops).dedup.length

/-! ### Touching operations and the reference LRU -/

/-- The key the operation touches in state `s`: a `Set` touches its key, a `Get`
touches its key when it reports `expired = false`; a deferred check touches
nothing. -/
def Op.touches (s : LRU V W) : Op V → Option String
  | .set k _ _ _ => some k
  | .get k now => if (s.Get k now).2.2 then none else some k
  | .check _ _ => none

/-- The touched key of every operation of the sequence, run from state `s`. -/
def touchLog (s : LRU V W) : List (Op V) → List (Option String)
  | [] => []
  | op :: ops => op.touches s :: touchLog (step s op) ops

/-- Time of the most recent touching operation on `k`: the position (counted
from 1) of the last operation of the log that touches `k`, and 0 when no
operation touches `k`. -/
def lastTouch (log : List (Option String)) (k : String) : Nat :=
  log.length - log.reverse.indexOf (some k)

/-- Whether the operation demotes nothing in state `s`: a `Get` reports
`expired = false`, a deferred check leaves the recency list as it is. -/
def Op.noDemotion (s : LRU V W) : Op V → Bool
  | .set _ _ _ _ => true
  | .get k now => !(s.Get k now).2.2
  | .check k now => decide ((s.expiryCheck k now).list = s.list)

/-- Whether no operation of the sequence, run from state `s`, demotes an entry. -/
def noDemotion (s : LRU V W) : List (Op V) → Bool
  | [] => true
  | op :: ops => op.noDemotion s && noDemotion (step s op) ops

/-- Reference LRU of the specification, one operation on the list of keys (most
recently touched first): a `Set`, or a `Get` on a resident key, moves the key to
the front; a `Set` of a new key into a full list drops the least recently
touched key (the last one); a deferred check does nothing. -/
def refStep (n : Int) (l : List String) : Op V → List String
  | .set k _ _ _ =>
    if k ∈ l then k :: l.erase k
    else if (l.length : Int) < n then k :: l
    else k :: l.dropLast
  | .get k _ => if k ∈ l then k :: l.erase k else l
  | .check _ _ => l

/-- Reference LRU of the specification: the key order after a sequence of
operations on an empty cache of capacity `n`. -/
def refLRU (n : Int) (ops : List (Op V)) : List String := ops.foldl (refStep n) []

/-! ### `container/list` facts -/

theorem mem_moveToFront {e a : Addr} {l : List Addr} : a ∈ moveToFront e l ↔ a ∈ l := by
  unfold moveToFront
  split
  · rename_i he
    by_cases hae : a = e
    · subst hae; simp [he]
    · simp [hae, List.mem_erase_of_ne hae]
  · rfl

theorem mem_moveToBack {e a : Addr} {l : List Addr} : a ∈ moveToBack e l ↔ a ∈ l := by
  unfold moveToBack
  split
  · rename_i he
    by_cases hae : a = e
    · subst hae; simp [he]
    · simp [hae, List.mem_erase_of_ne hae]
  · rfl

theorem nodup_moveToFront {e : Addr} {l : List Addr} (h : l.Nodup) : (moveToFront e l).Nodup := by
  unfold moveToFront
  split
  · exact List.nodup_cons.mpr ⟨fun hm => (h.mem_erase_iff.mp hm).1 rfl, h.erase e⟩
  · exact h

theorem nodup_moveToBack {e : Addr} {l : List Addr} (h : l.Nodup) : (moveToBack e l).Nodup := by
  unfold moveToBack
  split
  · refine List.Nodup.append (h.erase e) (List.nodup_singleton e) ?_
    intro a ha hb
    rw [List.mem_singleton] at hb
    subst hb
    exact (h.mem_erase_iff.mp ha).1 rfl
  · exact h

theorem length_moveToFront {e : Addr} {l : List Addr} : (moveToFront e l).length = l.length := by
  unfold moveToFront
  split
  · rename_i he
    have := List.length_pos_of_mem he
    simp [List.length_erase_of_mem he]
    omega
  · rfl

theorem length_moveToBack {e : Addr} {l : List Addr} : (moveToBack e l).length = l.length := by
  unfold moveToBack
  split
  · rename_i he
    have := List.length_pos_of_mem he
    simp [List.length_erase_of_mem he]
    omega
  · rfl

/-! ### Unfolding the operations -/

theorem removeElement_list (s : LRU V W) (e : Addr) :
    (s.removeElement (some e)).list = s.list.erase e := by
  unfold LRU.removeElement; dsimp only; split <;> rfl

theorem removeElement_keyMap (s : LRU V W) (e : Addr) :
    (s.removeElement (some e)).keyMap =
      fun k => if k = (s.mem e).key then none else s.keyMap k := by
  unfold LRU.removeElement; dsimp only; split <;> rfl

theorem removeElement_mem (s : LRU V W) (e : Option Addr) :
    (s.removeElement e).mem = s.mem := by
  cases e with
  | none => rfl
  | some e => unfold LRU.removeElement; dsimp only; split <;> rfl

theorem removeElement_next (s : LRU V W) (e : Option Addr) :
    (s.removeElement e).next = s.next := by
  cases e with
  | none => rfl
  | some e => unfold LRU.removeElement; dsimp only; split <;> rfl

theorem removeElement_size (s : LRU V W) (e : Option Addr) :
    (s.removeElement e).size = s.size := by
  cases e with
  | none => rfl
  | some e => unfold LRU.removeElement; dsimp only; split <;> rfl

theorem removeElement_opts (s : LRU V W) (e : Option Addr) :
    (s.removeElement e).opts = s.opts := by
  cases e with
  | none => rfl
  | some e => unfold LRU.removeElement; dsimp only; split <;> rfl

theorem removeElement_world (s : LRU V W) (e : Addr) :
    (s.removeElement (some e)).world =
      match s.opts.evictCallback with
      | some cb => cb (s.mem e).key (s.mem e).value s.world
      | none => s.world := by
  unfold LRU.removeElement; dsimp only; split <;> rfl

/-! ### Preservation of the lock-step invariant -/

theorem WF.relist {s : LRU V W} (h : WF s) (l : List Addr)
    (hm : ∀ a, a ∈ l ↔ a ∈ s.list) (hn : l.Nodup) : WF { s with list := l } where
  nodup := hn
  fresh := fun a ha => h.fresh a ((hm a).mp ha)
  index := fun k a => by
    show s.keyMap k = some a ↔ a ∈ l ∧ (s.mem a).key = k
    rw [hm a]; exact h.index k a

theorem WF.updateItem {s : LRU V W} (h : WF s) (a : Addr) (it : Item V)
    (hk : it.key = (s.mem a).key) : WF { s with mem := Function.update s.mem a it } where
  nodup := h.nodup
  fresh := h.fresh
  index := fun k b => by
    show s.keyMap k = some b ↔ b ∈ s.list ∧ (Function.update s.mem a it b).key = k
    rw [h.index k b]
    by_cases hb : b = a
    · subst hb; simp [hk]
    · simp [Function.update_noteq hb]

theorem WF.pushFront {s : LRU V W} (h : WF s) (it : Item V) (hk : s.keyMap it.key = none) :
    WF { s with mem := Function.update s.mem s.next it
                next := s.next + 1
                list := s.next :: s.list
                keyMap := fun k => if k = it.key then some s.next else s.keyMap k } where
  nodup := List.nodup_cons.mpr ⟨fun hm => Nat.lt_irrefl _ (h.fresh _ hm), h.nodup⟩
  fresh := fun a ha => by
    show a < s.next + 1
    rcases List.mem_cons.mp ha with rfl | ha
    · exact Nat.lt_succ_self _
    · exact Nat.lt_succ_of_lt (h.fresh a ha)
  index := fun k a => by
    show (if k = it.key then some s.next else s.keyMap k) = some a ↔
      a ∈ s.next :: s.list ∧ (Function.update s.mem s.next it a).key = k
    by_cases ha : a = s.next
    · subst ha
      have hnot : s.next ∉ s.list := fun hm => Nat.lt_irrefl _ (h.fresh _ hm)
      by_cases hkk : k = it.key
      · simp [hkk]
      · simp only [hkk, if_false, Function.update_same, List.mem_cons, true_or, true_and]
        constructor
        · intro hs; exact absurd ((h.index k s.next).mp hs).1 hnot
        · intro he; exact absurd he.symm hkk
    · rw [Function.update_noteq ha, List.mem_cons]
      by_cases hkk : k = it.key
      · subst hkk
        simp only [if_true, Option.some.injEq, ha, false_or]
        constructor
        · intro he; exact absurd he.symm ha
        · intro hm
          have := (h.index it.key a).mpr hm
          rw [hk] at this; cases this
      · simp only [hkk, if_false, ha, false_or]
        exact h.index k a

theorem WF.removeElement {s : LRU V W} (h : WF s) (e : Addr) (he : e ∈ s.list) :
    WF (s.removeElement (some e)) where
  nodup := by rw [removeElement_list]; exact h.nodup.erase e
  fresh := fun a ha => by
    rw [removeElement_list] at ha
    rw [removeElement_next]
    exact h.fresh a (List.mem_of_mem_erase ha)
  index := fun k a => by
    rw [removeElement_list, removeElement_keyMap, removeElement_mem, h.nodup.mem_erase_iff]
    by_cases hk : k = (s.mem e).key
    · subst hk
      simp only [if_true]
      constructor
      · intro hc; cases hc
      · rintro ⟨⟨hne, hm⟩, hkey⟩
        have h1 := (h.index _ a).mpr ⟨hm, hkey⟩
        have h2 := (h.index _ e).mpr ⟨he, rfl⟩
        rw [h1] at h2
        exact absurd (Option.some.inj h2) hne
    · simp only [hk, if_false]
      rw [h.index k a]
      constructor
      · rintro ⟨hm, hkey⟩
        refine ⟨⟨?_, hm⟩, hkey⟩
        rintro rfl
        exact hk hkey.symm
      · rintro ⟨⟨_, hm⟩, hkey⟩
        exact ⟨hm, hkey⟩

/-! ### Case analysis of `Set`, `Get` and the deferred check -/

theorem Set_hit {s : LRU V W} {k : String} {a : Addr} (h : s.keyMap k = some a)
    (v : Option V) (ttl now : Int) :
    s.Set k v ttl now =
      ({ s with mem := Function.update s.mem a { s.mem a with value := v, expiry := now + ttl }
                list := moveToFront a s.list }, false) := by
  simp only [LRU.Set, h]

theorem Set_miss_room {s : LRU V W} {k : String} (h : s.keyMap k = none)
    (v : Option V) (ttl now : Int) (hlen : ((s.list.length : Int) + 1) ≤ s.size) :
    s.Set k v ttl now =
      ({ s with mem := Function.update s.mem s.next ⟨k, v, now + ttl⟩
                next := s.next + 1
                list := s.next :: s.list
                keyMap := fun k1 => if k1 = k then some s.next else s.keyMap k1 }, true) := by
  have hn : ¬ ((s.list.length : Int) + 1 > s.size) := by omega
  simp only [LRU.Set, h, List.length_cons, Nat.cast_add, Nat.cast_one, hn, if_false]

theorem Set_miss_full {s : LRU V W} {k : String} (h : s.keyMap k = none)
    (v : Option V) (ttl now : Int) (hlen : s.size < (s.list.length : Int) + 1) :
    s.Set k v ttl now =
      (LRU.removeLastElement
        { s with mem := Function.update s.mem s.next ⟨k, v, now + ttl⟩
                 next := s.next + 1
                 list := s.next :: s.list
                 keyMap := fun k1 => if k1 = k then some s.next else s.keyMap k1 }, true) := by
  have hn : ((s.list.length : Int) + 1 > s.size) := by omega
  simp only [LRU.Set, h, List.length_cons, Nat.cast_add, Nat.cast_one, hn, if_true]

theorem Get_miss {s : LRU V W} {k : String} (h : s.keyMap k = none) (now : Int) :
    s.Get k now = (s, none, false) := by
  simp only [LRU.Get, h]

theorem Get_expired {s : LRU V W} {k : String} {a : Addr} (h : s.keyMap k = some a)
    {now : Int} (ht : (s.mem a).expiry < now) :
    s.Get k now = ({ s with list := moveToBack a s.list }, (s.mem a).value, true) := by
  simp [LRU.Get, h, ht]

theorem Get_fresh {s : LRU V W} {k : String} {a : Addr} (h : s.keyMap k = some a)
    {now : Int} (ht : now ≤ (s.mem a).expiry) :
    s.Get k now = ({ s with list := moveToFront a s.list }, (s.mem a).value, false) := by
  have : ¬ ((s.mem a).expiry < now) := by omega
  simp [LRU.Get, h, this]

theorem expiryCheck_miss {s : LRU V W} {k : String} (h : s.keyMap k = none) (now : Int) :
    s.expiryCheck k now = s := by
  simp only [LRU.expiryCheck, h]

theorem expiryCheck_expired {s : LRU V W} {k : String} {a : Addr} (h : s.keyMap k = some a)
    {now : Int} (ht : (s.mem a).expiry < now) :
    s.expiryCheck k now = { s with list := moveToBack a s.list } := by
  simp [LRU.expiryCheck, h, ht]

theorem expiryCheck_fresh {s : LRU V W} {k : String} {a : Addr} (h : s.keyMap k = some a)
    {now : Int} (ht : now ≤ (s.mem a).expiry) :
    s.expiryCheck k now = s := by
  have : ¬ ((s.mem a).expiry < now) := by omega
  simp [LRU.expiryCheck, h, this]

/-! ### The back of the list -/

theorem back_mem {l : List Addr} {e : Addr} (h : back l = some e) : e ∈ l := by
  unfold back at h
  cases l with
  | nil => cases h
  | cons x xs =>
    rw [List.getLast?_eq_getLast _ (List.cons_ne_nil x xs)] at h
    cases h
    exact List.getLast_mem _

theorem back_cons_of_ne_nil (x : Addr) {l : List Addr} (h : l ≠ []) : back (x :: l) = back l := by
  cases l with
  | nil => exact absurd rfl h
  | cons y ys => simp [back, List.getLast?_cons_cons]

theorem back_isSome_of_ne_nil {l : List Addr} (h : l ≠ []) : ∃ e, back l = some e := by
  cases hb : back l with
  | none => exact absurd (List.getLast?_eq_none_iff.mp hb) h
  | some e => exact ⟨e, rfl⟩

theorem erase_back {l : List Addr} {e : Addr} (hn : l.Nodup) (h : back l = some e) :
    l.erase e = l.dropLast := by
  have hl : l = l.dropLast ++ [e] := (List.dropLast_append_getLast? e h).symm
  have hnot : e ∉ l.dropLast := by
    intro hm
    rw [hl] at hn
    exact (List.disjoint_of_nodup_append hn) hm (List.mem_singleton_self e)
  conv_lhs => rw [hl]
  rw [List.erase_append_right _ hnot]
  simp

/-! ### Preservation of the representation invariant -/

theorem Inv.toFront {s : LRU V W} (h : Inv s) (a : Addr) :
    Inv { s with list := moveToFront a s.list } where
  toWF := h.toWF.relist _ (fun _ => mem_moveToFront) (nodup_moveToFront h.nodup)
  size_pos := h.size_pos
  len_le := by
    show ((moveToFront a s.list).length : Int) ≤ s.size
    rw [length_moveToFront]; exact h.len_le

theorem Inv.toBack {s : LRU V W} (h : Inv s) (a : Addr) :
    Inv { s with list := moveToBack a s.list } where
  toWF := h.toWF.relist _ (fun _ => mem_moveToBack) (nodup_moveToBack h.nodup)
  size_pos := h.size_pos
  len_le := by
    show ((moveToBack a s.list).length : Int) ≤ s.size
    rw [length_moveToBack]; exact h.len_le

theorem Inv.setItem {s : LRU V W} (h : Inv s) (a : Addr) (it : Item V)
    (hk : it.key = (s.mem a).key) : Inv { s with mem := Function.update s.mem a it } where
  toWF := h.toWF.updateItem a it hk
  size_pos := h.size_pos
  len_le := h.len_le

theorem Inv.list_ne_nil_of_full {s : LRU V W} (h : Inv s)
    (hfull : s.size < (s.list.length : Int) + 1) : s.list ≠ [] := by
  intro hnil
  have := h.size_pos
  rw [hnil] at hfull
  simp at hfull
  omega

theorem Inv.Get {s : LRU V W} (h : Inv s) (k : String) (now : Int) : Inv (s.Get k now).1 := by
  cases hk : s.keyMap k with
  | none => rw [Get_miss hk]; exact h
  | some a =>
    by_cases ht : (s.mem a).expiry < now
    · rw [Get_expired hk ht]; exact h.toBack a
    · rw [Get_fresh hk (not_lt.mp ht)]; exact h.toFront a

theorem Inv.expiryCheck {s : LRU V W} (h : Inv s) (k : String) (now : Int) :
    Inv (s.expiryCheck k now) := by
  cases hk : s.keyMap k with
  | none => rw [expiryCheck_miss hk]; exact h
  | some a =>
    by_cases ht : (s.mem a).expiry < now
    · rw [expiryCheck_expired hk ht]; exact h.toBack a
    · rw [expiryCheck_fresh hk (not_lt.mp ht)]; exact h

theorem Inv.Set {s : LRU V W} (h : Inv s) (k : String) (v : Option V) (ttl now : Int) :
    Inv (s.Set k v ttl now).1 := by
  cases hk : s.keyMap k with
  | some a =>
    rw [Set_hit hk]
    exact (h.setItem a { s.mem a with value := v, expiry := now + ttl } rfl).toFront a
  | none =>
    have hwf := h.toWF.pushFront ⟨k, v, now + ttl⟩ hk
    by_cases hlen : ((s.list.length : Int) + 1) ≤ s.size
    · rw [Set_miss_room hk v ttl now hlen]
      exact ⟨hwf, h.size_pos, by simpa using hlen⟩
    · have hfull : s.size < (s.list.length : Int) + 1 := not_le.mp hlen
      rw [Set_miss_full hk v ttl now hfull]
      have hne := h.list_ne_nil_of_full hfull
      obtain ⟨e, he⟩ := back_isSome_of_ne_nil hne
      have hem : e ∈ s.list := back_mem he
      unfold LRU.removeLastElement
      dsimp only
      rw [back_cons_of_ne_nil _ hne, he]
      refine ⟨hwf.removeElement e (List.mem_cons_of_mem _ hem), ?_, ?_⟩
      · rw [removeElement_size]; exact h.size_pos
      · rw [removeElement_size, removeElement_list]
        have hmem : e ∈ s.next :: s.list := List.mem_cons_of_mem _ hem
        have hle := h.len_le
        show (((s.next :: s.list).erase e).length : Int) ≤ s.size
        rw [List.length_erase_of_mem hmem]
        simp
        exact hle

theorem Inv.step {s : LRU V W} (h : Inv s) (op : Op V) : Inv (step s op) := by
  cases op with
  | set k v ttl now => exact h.Set k v ttl now
  | get k now => exact h.Get k now
  | check k now => exact h.expiryCheck k now

theorem Inv.run {s : LRU V W} (h : Inv s) (ops : List (Op V)) : Inv (run s ops) := by
  induction ops generalizing s with
  | nil => exact h
  | cons op ops ih => exact ih (h.step op)

theorem Inv.new {size : Int} {opts : Options V W} {w : W} {c : LRU V W}
    (h : NewLRUWithTTL size opts w = some c) : Inv c := by
  unfold NewLRUWithTTL at h
  split at h
  · cases h
  · rename_i hs
    cases h
    exact ⟨⟨List.nodup_nil, (fun a ha => by cases ha), (fun k a => by simp)⟩,
      not_le.mp hs, (by simpa using le_of_lt (not_le.mp hs))⟩

theorem Reachable.inv {s : LRU V W} (h : Reachable s) : Inv s := by
  obtain ⟨size, opts, w, c, ops, hc, hr⟩ := h
  rw [← hr]
  exact (Inv.new hc).run ops

/-! ### Fields that no operation changes -/

theorem Set_size (s : LRU V W) (k : String) (v : Option V) (ttl now : Int) :
    (s.Set k v ttl now).1.size = s.size := by
  simp only [LRU.Set]
  split
  · rfl
  · dsimp only
    split
    · unfold LRU.removeLastElement; rw [removeElement_size]
    · rfl

theorem Set_opts (s : LRU V W) (k : String) (v : Option V) (ttl now : Int) :
    (s.Set k v ttl now).1.opts = s.opts := by
  simp only [LRU.Set]
  split
  · rfl
  · dsimp only
    split
    · unfold LRU.removeLastElement; rw [removeElement_opts]
    · rfl

theorem Get_frame (s : LRU V W) (k : String) (now : Int) :
    (s.Get k now).1.size = s.size ∧ (s.Get k now).1.opts = s.opts ∧
    (s.Get k now).1.keyMap = s.keyMap ∧ (s.Get k now).1.mem = s.mem ∧
    (s.Get k now).1.next = s.next ∧ (s.Get k now).1.world = s.world := by
  simp only [LRU.Get]
  split
  · split <;> exact ⟨rfl, rfl, rfl, rfl, rfl, rfl⟩
  · exact ⟨rfl, rfl, rfl, rfl, rfl, rfl⟩

theorem expiryCheck_frame (s : LRU V W) (k : String) (now : Int) :
    (s.expiryCheck k now).size = s.size ∧ (s.expiryCheck k now).opts = s.opts ∧
    (s.expiryCheck k now).keyMap = s.keyMap ∧ (s.expiryCheck k now).mem = s.mem ∧
    (s.expiryCheck k now).next = s.next ∧ (s.expiryCheck k now).world = s.world := by
  simp only [LRU.expiryCheck]
  split
  · split <;> exact ⟨rfl, rfl, rfl, rfl, rfl, rfl⟩
  · exact ⟨rfl, rfl, rfl, rfl, rfl, rfl⟩

theorem step_size (s : LRU V W) (op : Op V) : (step s op).size = s.size := by
  cases op with
  | set k v ttl now => exact Set_size s k v ttl now
  | get k now => exact (Get_frame s k now).1
  | check k now => exact (expiryCheck_frame s k now).1

theorem run_size (s : LRU V W) (ops : List (Op V)) : (run s ops).size = s.size := by
  induction ops generalizing s with
  | nil => rfl
  | cons op ops ih => exact (ih (step s op)).trans (step_size s op)

theorem new_size {size : Int} {opts : Options V W} {w : W} {c : LRU V W}
    (h : NewLRUWithTTL size opts w = some c) : c.size = size := by
  unfold NewLRUWithTTL at h
  split at h
  · cases h
  · cases h; rfl

/-! ### C1, C2: invariants -/

/-- C1 (capacity invariant): for a cache built by `NewLRUWithTTL` with capacity
`n` (construction succeeds, so `n > 0`) and every finite sequence of `Set`, `Get` and deferred expiry checks
(any keys, values, ttls and clock readings), the recency list holds at most `n`
entries after each operation of the sequence (that is, after every initial
segment `ops.take i`). -/
theorem capacity_invariant (n : Int) (opts : Options V W) (w : W) (c : LRU V W)
    (hc : NewLRUWithTTL n opts w = some c) (ops : List (Op V)) (i : Nat) :
    ((run c (ops.take i)).list.length : Int) ≤ n := by
  have h := ((Inv.new hc).run (ops.take i)).len_le
  rw [run_size, new_size hc] at h
  exact h

/-- Witness for C1 on the cache of the tests. -/
theorem capacity_invariant_witness :
    ((run cache3 ([Op.set "a" (some 12) 3 0, Op.set "b" (some 2) 3 0,
        Op.set "c" (some 42) 2 0, Op.set "d" (some 3) 2 0].take 4)).list.length : Int) ≤ 3 :=
  capacity_invariant 3 evictOpts "" cache3 rfl _ 4

/-- C2 (index/list lock-step): in every reachable state the keys of `keyMap`
are exactly the keys of the items of the recency list, no key (and no element)
occurs twice in the list, and `keyMap k` is the list element whose item has
key `k`. -/
theorem index_list_lockstep (s : LRU V W) (h : Reachable s) :
    (∀ k, (∃ a, s.keyMap k = some a) ↔ k ∈ s.keys) ∧
    s.keys.Nodup ∧ s.list.Nodup ∧
    (∀ k a, s.keyMap k = some a → a ∈ s.list ∧ (s.mem a).key = k) := by
  have hi := h.inv
  refine ⟨fun k => ?_, ?_, hi.nodup, fun k a hk => (hi.index k a).mp hk⟩
  · unfold LRU.keys
    rw [List.mem_map]
    constructor
    · rintro ⟨a, ha⟩
      exact ⟨a, (hi.index k a).mp ha⟩
    · rintro ⟨a, ha⟩
      exact ⟨a, (hi.index k a).mpr ha⟩
  · unfold LRU.keys
    refine List.Nodup.map_on ?_ hi.nodup
    intro a ha b hb hab
    have h1 := (hi.index _ a).mpr ⟨ha, rfl⟩
    have h2 := (hi.index _ b).mpr ⟨hb, hab.symm⟩
    rw [h1] at h2
    exact Option.some.inj h2

/-- Witness for C2 on the cache of `TestEvictCallback` after three insertions. -/
theorem index_list_lockstep_witness :
    (∀ k, (∃ a, cacheABC.keyMap k = some a) ↔ k ∈ cacheABC.keys) ∧
    cacheABC.keys.Nodup ∧ cacheABC.list.Nodup ∧
    (∀ k a, cacheABC.keyMap k = some a → a ∈ cacheABC.list ∧ (cacheABC.mem a).key = k) :=
  index_list_lockstep cacheABC ⟨3, evictOpts, "", cache3, _, rfl, rfl⟩

/-! ### The state after an insertion -/

theorem Set_room_fields {s : LRU V W} {k : String} (hk : s.keyMap k = none)
    (v : Option V) (ttl now : Int) (hlen : ((s.list.length : Int) + 1) ≤ s.size) :
    (s.Set k v ttl now).1.list = s.next :: s.list ∧
    (s.Set k v ttl now).1.keyMap = (fun k1 => if k1 = k then some s.next else s.keyMap k1) ∧
    (s.Set k v ttl now).1.mem = Function.update s.mem s.next ⟨k, v, now + ttl⟩ ∧
    (s.Set k v ttl now).1.next = s.next + 1 ∧
    (s.Set k v ttl now).1.world = s.world := by
  rw [Set_miss_room hk v ttl now hlen]
  exact ⟨rfl, rfl, rfl, rfl, rfl⟩

theorem Set_full_fields {s : LRU V W} (h : Inv s) {k : String} (hk : s.keyMap k = none)
    (v : Option V) (ttl now : Int) (hfull : s.size < (s.list.length : Int) + 1) :
    ∃ e, back s.list = some e ∧ e ∈ s.list ∧ e ≠ s.next ∧ (s.mem e).key ≠ k ∧
      (s.Set k v ttl now).1.list = s.next :: s.list.dropLast ∧
      (s.Set k v ttl now).1.keyMap =
        (fun k1 => if k1 = (s.mem e).key then none
                   else if k1 = k then some s.next else s.keyMap k1) ∧
      (s.Set k v ttl now).1.mem = Function.update s.mem s.next ⟨k, v, now + ttl⟩ ∧
      (s.Set k v ttl now).1.next = s.next + 1 ∧
      (s.Set k v ttl now).1.world =
        (match s.opts.evictCallback with
         | some cb => cb (s.mem e).key (s.mem e).value s.world
         | none => s.world) := by
  have hne := h.list_ne_nil_of_full hfull
  obtain ⟨e, he⟩ := back_isSome_of_ne_nil hne
  have hem : e ∈ s.list := back_mem he
  have hen : e ≠ s.next := Nat.ne_of_lt (h.fresh e hem)
  have hkey : (s.mem e).key ≠ k := by
    intro hc
    have := (h.index k e).mpr ⟨hem, hc⟩
    rw [hk] at this; cases this
  refine ⟨e, he, hem, hen, hkey, ?_⟩
  rw [Set_miss_full hk v ttl now hfull]
  unfold LRU.removeLastElement
  dsimp only
  rw [back_cons_of_ne_nil _ hne, he]
  have hmem : Function.update s.mem s.next (⟨k, v, now + ttl⟩ : Item V) e = s.mem e :=
    Function.update_noteq hen _ _
  refine ⟨?_, ?_, ?_, ?_, ?_⟩
  · rw [removeElement_list]
    show (s.next :: s.list).erase e = s.next :: s.list.dropLast
    rw [List.erase_cons_tail (by simpa using hen.symm), erase_back h.nodup he]
  · rw [removeElement_keyMap]
    dsimp only
    rw [hmem]
  · rw [removeElement_mem]
  · rw [removeElement_next]
  · rw [removeElement_world]
    dsimp only
    rw [hmem]

/-! ### C3: `Get` returns the latest written value -/

theorem lastSet_snoc (k : String) (ops : List (Op V)) (op : Op V) :
    lastSet k (ops ++ [op]) = (match Op.writes k op with
      | some v => some v
      | none => lastSet k ops) := by
  unfold lastSet
  rw [List.reverse_append, List.reverse_singleton, List.singleton_append, List.findSome?_cons]
  cases Op.writes k op <;> rfl

theorem run_snoc (s : LRU V W) (ops : List (Op V)) (op : Op V) :
    run s (ops ++ [op]) = step (run s ops) op := by
  unfold run
  rw [List.foldl_append]; rfl

theorem latest_step {s : LRU V W} (h : Inv s) (ops : List (Op V))
    (J : ∀ k a, s.keyMap k = some a → lastSet k ops = some (s.mem a).value) (op : Op V) :
    ∀ k a, (step s op).keyMap k = some a →
      lastSet k (ops ++ [op]) = some ((step s op).mem a).value := by
  intro k a hka
  rw [lastSet_snoc]
  cases op with
  | get k0 now =>
    obtain ⟨_, _, hkm, hmem, _, _⟩ := Get_frame s k0 now
    simp only [step] at hka ⊢
    rw [hkm] at hka
    rw [hmem]
    exact J k a hka
  | check k0 now =>
    obtain ⟨_, _, hkm, hmem, _, _⟩ := expiryCheck_frame s k0 now
    simp only [step] at hka ⊢
    rw [hkm] at hka
    rw [hmem]
    exact J k a hka
  | set k0 v ttl now =>
    simp only [step, Op.writes] at hka ⊢
    cases hk0 : s.keyMap k0 with
    | some a0 =>
      rw [Set_hit hk0] at hka ⊢
      dsimp only at hka ⊢
      by_cases hkk : k0 = k
      · subst hkk
        rw [hk0] at hka
        cases hka
        simp
      · have hne : a ≠ a0 := by
          rintro rfl
          have h1 := ((h.index k a).mp hka).2
          have h2 := ((h.index k0 a).mp hk0).2
          exact hkk (h2.symm.trans h1)
        simp only [hkk, if_false, Function.update_noteq hne]
        exact J k a hka
    | none =>
      by_cases hlen : ((s.list.length : Int) + 1) ≤ s.size
      · obtain ⟨_, hkm, hmem, _, _⟩ := Set_room_fields hk0 v ttl now hlen
        rw [hkm] at hka
        rw [hmem]
        by_cases hkk : k0 = k
        · subst hkk
          simp only [if_true, Option.some.injEq] at hka
          subst hka
          simp
        · have hkk2 : ¬ k = k0 := fun hc => hkk hc.symm
          simp only [hkk2, if_false] at hka
          have hne : a ≠ s.next := Nat.ne_of_lt (h.fresh a ((h.index k a).mp hka).1)
          simp only [hkk, if_false, Function.update_noteq hne]
          exact J k a hka
      · obtain ⟨e, _, _, _, _, _, hkm, hmem, _, _⟩ :=
          Set_full_fields h hk0 v ttl now (not_le.mp hlen)
        rw [hkm] at hka
        rw [hmem]
        by_cases hke : k = (s.mem e).key
        · simp only [hke, if_true] at hka
          cases hka
        · simp only [hke, if_false] at hka
          by_cases hkk : k0 = k
          · subst hkk
            simp only [if_true, Option.some.injEq] at hka
            subst hka
            simp
          · have hkk2 : ¬ k = k0 := fun hc => hkk hc.symm
            simp only [hkk2, if_false] at hka
            have hne : a ≠ s.next := Nat.ne_of_lt (h.fresh a ((h.index k a).mp hka).1)
            simp only [hkk, if_false, Function.update_noteq hne]
            exact J k a hka

theorem latest_run {c : LRU V W} (hc : Inv c) (hempty : ∀ k, c.keyMap k = none)
    (ops : List (Op V)) :
    ∀ k a, (run c ops).keyMap k = some a →
      lastSet k ops = some ((run c ops).mem a).value := by
  induction ops using List.reverseRecOn with
  | nil =>
    intro k a hka
    rw [show run c [] = c from rfl, hempty k] at hka
    cases hka
  | append_singleton ops op ih =>
    rw [run_snoc]
    exact latest_step (hc.run ops) ops ih op

theorem new_keyMap {size : Int} {opts : Options V W} {w : W} {c : LRU V W}
    (h : NewLRUWithTTL size opts w = some c) (k : String) : c.keyMap k = none := by
  unfold NewLRUWithTTL at h
  split at h
  · cases h
  · cases h; rfl

/-- C3 (`Get` returns the latest written value): after any sequence of `Set`,
`Get` and deferred checks on a fresh cache, `Get k` returns either `(nil, false)`
or a pair whose value is the value argument of the most recent `Set` on `k` in
the sequence. -/
theorem get_returns_latest_write (n : Int) (opts : Options V W) (w : W) (c : LRU V W)
    (hc : NewLRUWithTTL n opts w = some c) (ops : List (Op V)) (k : String) (now : Int) :
    ((run c ops).Get k now).2 = (none, false) ∨
    ∃ v, lastSet k ops = some v ∧ ((run c ops).Get k now).2.1 = v := by
  cases hk : (run c ops).keyMap k with
  | none => left; rw [Get_miss hk]
  | some a =>
    right
    refine ⟨((run c ops).mem a).value, latest_run (Inv.new hc) (new_keyMap hc) ops k a hk, ?_⟩
    by_cases ht : ((run c ops).mem a).expiry < now
    · rw [Get_expired hk ht]
    · rw [Get_fresh hk (not_lt.mp ht)]

/-- Witness for C3: the sequence of `TestGet` (`Set a 1`, `Set b 2`, `Set c 3`,
`Set a 5`, then `Get a`). -/
theorem get_returns_latest_write_witness :
    ((run cache3 [Op.set "a" (some 1) 3 0, Op.set "b" (some 2) 5 0, Op.set "c" (some 3) 2 0,
        Op.set "a" (some 5) 5 0]).Get "a" 0).2 = (none, false) ∨
    ∃ v, lastSet "a" [Op.set "a" (some 1) 3 0, Op.set "b" (some 2) 5 0,
        Op.set "c" (some 3) 2 0, (Op.set "a" (some 5) 5 0 : Op Nat)] = some v ∧
      ((run cache3 [Op.set "a" (some 1) 3 0, Op.set "b" (some 2) 5 0, Op.set "c" (some 3) 2 0,
        Op.set "a" (some 5) 5 0]).Get "a" 0).2.1 = v :=
  get_returns_latest_write 3 evictOpts "" cache3 rfl _ "a" 0

/-! ### Entries of the list after a move or an allocation -/

theorem map_update_of_not_mem {l : List Addr} {x : Addr} (hx : x ∉ l) (m : Addr → Item V)
    (it : Item V) : l.map (Function.update m x it) = l.map m := by
  apply List.map_congr_left
  intro a ha
  have hne : a ≠ x := by
    rintro rfl
    exact hx ha
  exact Function.update_noteq hne _ _

theorem WF.next_not_mem {s : LRU V W} (h : WF s) : s.next ∉ s.list :=
  fun hm => Nat.lt_irrefl _ (h.fresh _ hm)

theorem WF.erase_entries {s : LRU V W} (h : WF s) {k : String} {a : Addr}
    (hk : s.keyMap k = some a) :
    (s.list.erase a).map s.mem = s.entries.filter (fun it => decide (it.key ≠ k)) := by
  unfold LRU.entries
  rw [h.nodup.erase_eq_filter, List.filter_map]
  congr 1
  apply List.filter_congr
  intro x hx
  have hiff : x = a ↔ (s.mem x).key = k := by
    constructor
    · rintro rfl; exact ((h.index k x).mp hk).2
    · intro hkey
      have := (h.index k x).mpr ⟨hx, hkey⟩
      rw [hk] at this
      exact (Option.some.inj this).symm
  by_cases hxa : x = a
  · have hkx := hiff.mp hxa
    subst hxa
    simp [hkx]
  · have : ¬ (s.mem x).key = k := fun hc => hxa (hiff.mpr hc)
    simp [hxa, this]

theorem WF.entries_toFront {s : LRU V W} (h : WF s) {k : String} {a : Addr}
    (hk : s.keyMap k = some a) :
    (moveToFront a s.list).map s.mem =
      s.mem a :: s.entries.filter (fun it => decide (it.key ≠ k)) := by
  have ha := ((h.index k a).mp hk).1
  unfold moveToFront
  rw [if_pos ha, List.map_cons, h.erase_entries hk]

theorem WF.entries_toBack {s : LRU V W} (h : WF s) {k : String} {a : Addr}
    (hk : s.keyMap k = some a) :
    (moveToBack a s.list).map s.mem =
      s.entries.filter (fun it => decide (it.key ≠ k)) ++ [s.mem a] := by
  have ha := ((h.index k a).mp hk).1
  unfold moveToBack
  rw [if_pos ha, List.map_append, h.erase_entries hk]
  rfl

theorem WF.length_filter_entries {s : LRU V W} (h : WF s) {k : String} {a : Addr}
    (hk : s.keyMap k = some a) :
    (s.entries.filter (fun it => decide (it.key ≠ k))).length + 1 = s.entries.length := by
  have ha := ((h.index k a).mp hk).1
  rw [← h.erase_entries hk]
  unfold LRU.entries
  rw [List.length_map, List.length_map, List.length_erase_of_mem ha]
  have := List.length_pos_of_mem ha
  omega

/-! ### C4: insert semantics -/

/-- C4 (insert semantics): in a reachable state, `Set` on a key that is not
indexed returns `true` and puts the entry `(k, v, t + ttl)` at the front.  When
the list held fewer than `size` entries, all previous entries follow in their
previous order, the length grows by one and the index of every other key is
unchanged.  When the list was full, the previous back-most entry `last` is
removed from the list and from the index, all other previous entries follow in
their previous order, the length is unchanged and the index of every key other
than `k` and `last.key` is unchanged.  In both cases `k` is indexed afterwards. -/
theorem insert_semantics (s : LRU V W) (h : Reachable s) (k : String)
    (hk : s.keyMap k = none) (v : Option V) (ttl t : Int) :
    (s.Set k v ttl t).2 = true ∧
    (∃ a, (s.Set k v ttl t).1.keyMap k = some a) ∧
    ((s.list.length : Int) < s.size →
      (s.Set k v ttl t).1.entries = ⟨k, v, t + ttl⟩ :: s.entries ∧
      (s.Set k v ttl t).1.list.length = s.list.length + 1 ∧
      ∀ k1, k1 ≠ k → (s.Set k v ttl t).1.keyMap k1 = s.keyMap k1) ∧
    ((s.list.length : Int) = s.size →
      ∃ last, s.entries.getLast? = some last ∧
        (s.Set k v ttl t).1.entries = ⟨k, v, t + ttl⟩ :: s.entries.dropLast ∧
        (s.Set k v ttl t).1.list.length = s.list.length ∧
        (s.Set k v ttl t).1.keyMap last.key = none ∧
        last ∉ (s.Set k v ttl t).1.entries ∧
        ∀ k1, k1 ≠ k → k1 ≠ last.key → (s.Set k v ttl t).1.keyMap k1 = s.keyMap k1) := by
  have hi := h.inv
  have hnext := hi.toWF.next_not_mem
  refine ⟨?_, ?_, ?_, ?_⟩
  · simp only [LRU.Set, hk]
  · by_cases hlen : ((s.list.length : Int) + 1) ≤ s.size
    · obtain ⟨_, hkm, _⟩ := Set_room_fields hk v ttl t hlen
      exact ⟨s.next, by rw [hkm]; simp⟩
    · obtain ⟨e, _, _, _, hkey, _, hkm, _⟩ := Set_full_fields hi hk v ttl t (not_le.mp hlen)
      refine ⟨s.next, ?_⟩
      rw [hkm]
      have hkey2 : ¬ k = (s.mem e).key := fun hc => hkey hc.symm
      simp [hkey2]
  · intro hlt
    have hlen : ((s.list.length : Int) + 1) ≤ s.size := by omega
    obtain ⟨hl, hkm, hmem, _, _⟩ := Set_room_fields hk v ttl t hlen
    refine ⟨?_, ?_, ?_⟩
    · unfold LRU.entries
      rw [hl, hmem, List.map_cons, Function.update_same, map_update_of_not_mem hnext]
    · rw [hl]; rfl
    · intro k1 hk1
      rw [hkm]
      simp [hk1]
  · intro heq
    have hfull : s.size < (s.list.length : Int) + 1 := by omega
    obtain ⟨e, he, hem, hen, hkey, hl, hkm, hmem, _, _⟩ := Set_full_fields hi hk v ttl t hfull
    have hdrop : s.next ∉ s.list.dropLast := fun hm => hnext (List.mem_of_mem_dropLast hm)
    have hent : (s.Set k v ttl t).1.entries = ⟨k, v, t + ttl⟩ :: s.entries.dropLast := by
      unfold LRU.entries
      rw [hl, hmem, List.map_cons, Function.update_same, map_update_of_not_mem hdrop,
        List.map_dropLast]
    refine ⟨s.mem e, ?_, hent, ?_, ?_, ?_, ?_⟩
    · unfold LRU.entries
      rw [List.getLast?_map]
      unfold back at he
      rw [he]; rfl
    · rw [hl, List.length_cons, List.length_dropLast]
      have := List.length_pos_of_mem hem
      omega
    · rw [hkm]; simp
    · rw [hent]
      intro hm
      rcases List.mem_cons.mp hm with hc | hc
      · exact hkey (by rw [hc])
      · unfold LRU.entries at hc
        rw [← List.map_dropLast, ← erase_back hi.nodup he, List.mem_map] at hc
        obtain ⟨b, hb, hbe⟩ := hc
        have hb2 := hi.nodup.mem_erase_iff.mp hb
        have h1 := (hi.index (s.mem e).key b).mpr ⟨hb2.2, by rw [hbe]⟩
        have h2 := (hi.index (s.mem e).key e).mpr ⟨hem, rfl⟩
        rw [h1] at h2
        exact hb2.1 (Option.some.inj h2)
    · intro k1 hk1 hk2
      rw [hkm]
      simp [hk1, hk2]

/-- Witness for C4: inserting `d` into the full cache of `TestEvictCallback`
(capacity 3, holding `c, b, a`) drops the back-most entry `a`. -/
theorem insert_semantics_witness :
    Reachable cacheABC ∧ cacheABC.keyMap "d" = none ∧
    (cacheABC.list.length : Int) = cacheABC.size ∧
    ∃ last, cacheABC.entries.getLast? = some last ∧
      (cacheABC.Set "d" (some 3) 2 0).1.entries = ⟨"d", some 3, 0 + 2⟩ :: cacheABC.entries.dropLast ∧
      (cacheABC.Set "d" (some 3) 2 0).1.list.length = cacheABC.list.length ∧
      (cacheABC.Set "d" (some 3) 2 0).1.keyMap last.key = none ∧
      last ∉ (cacheABC.Set "d" (some 3) 2 0).1.entries ∧
      ∀ k1, k1 ≠ "d" → k1 ≠ last.key →
        (cacheABC.Set "d" (some 3) 2 0).1.keyMap k1 = cacheABC.keyMap k1 :=
  ⟨⟨3, evictOpts, "", cache3, _, rfl, rfl⟩, rfl, rfl,
    (insert_semantics cacheABC ⟨3, evictOpts, "", cache3, _, rfl, rfl⟩ "d" rfl
      (some 3) 2 0).2.2.2 rfl⟩

/-! ### C5: update semantics -/

/-- C5 (update semantics): in a reachable state, `Set` on an indexed key `k`
(held by element `a`) returns `false`; afterwards the front entry is
`(k, v, t + ttl)`, the other entries are the previous entries without the one
of key `k`, unchanged and in their previous order, the number of entries is
unchanged, the index is unchanged and the eviction callback has not run (the
caller state `world` is unchanged), whether or not the cache is full. -/
theorem update_semantics (s : LRU V W) (h : Reachable s) (k : String) (a : Addr)
    (hk : s.keyMap k = some a) (v : Option V) (ttl t : Int) :
    (s.Set k v ttl t).2 = false ∧
    (s.Set k v ttl t).1.entries =
      ⟨k, v, t + ttl⟩ :: s.entries.filter (fun it => decide (it.key ≠ k)) ∧
    (s.Set k v ttl t).1.entries.length = s.entries.length ∧
    (s.Set k v ttl t).1.keyMap = s.keyMap ∧
    (s.Set k v ttl t).1.world = s.world := by
  have hi := h.inv
  have hkey : (s.mem a).key = k := ((hi.index k a).mp hk).2
  have hent : (s.Set k v ttl t).1.entries =
      ⟨k, v, t + ttl⟩ :: s.entries.filter (fun it => decide (it.key ≠ k)) := by
    rw [Set_hit hk]
    have ha := ((hi.index k a).mp hk).1
    have hna : a ∉ s.list.erase a := fun hm => (hi.nodup.mem_erase_iff.mp hm).1 rfl
    show (moveToFront a s.list).map
        (Function.update s.mem a { s.mem a with value := v, expiry := t + ttl }) = _
    unfold moveToFront
    rw [if_pos ha, List.map_cons, Function.update_same, map_update_of_not_mem hna,
      hi.toWF.erase_entries hk]
    dsimp only
    rw [hkey]
  refine ⟨?_, hent, ?_, ?_, ?_⟩
  · rw [Set_hit hk]
  · rw [hent, List.length_cons]
    exact hi.toWF.length_filter_entries hk
  · rw [Set_hit hk]
  · rw [Set_hit hk]

/-- Witness for C5: `Set a` on the full cache of `TestEvictCallback`, where `a`
is indexed (element 0). -/
theorem update_semantics_witness :
    Reachable cacheABC ∧ cacheABC.keyMap "a" = some 0 ∧
    (cacheABC.Set "a" (some 5) 5 1).2 = false ∧
    (cacheABC.Set "a" (some 5) 5 1).1.entries =
      ⟨"a", some 5, 1 + 5⟩ :: cacheABC.entries.filter (fun it => decide (it.key ≠ "a")) ∧
    (cacheABC.Set "a" (some 5) 5 1).1.entries.length = cacheABC.entries.length ∧
    (cacheABC.Set "a" (some 5) 5 1).1.keyMap = cacheABC.keyMap ∧
    (cacheABC.Set "a" (some 5) 5 1).1.world = cacheABC.world :=
  ⟨⟨3, evictOpts, "", cache3, _, rfl, rfl⟩, rfl,
    update_semantics cacheABC ⟨3, evictOpts, "", cache3, _, rfl, rfl⟩ "a" 0 rfl (some 5) 5 1⟩

/-! ### C6: the eviction callback -/

theorem step_opts (s : LRU V W) (op : Op V) : (step s op).opts = s.opts := by
  cases op with
  | set k v ttl now => exact Set_opts s k v ttl now
  | get k now => exact (Get_frame s k now).2.1
  | check k now => exact (expiryCheck_frame s k now).2.1

theorem run_opts (s : LRU V W) (ops : List (Op V)) : (run s ops).opts = s.opts := by
  induction ops generalizing s with
  | nil => rfl
  | cons op ops ih => exact (ih (step s op)).trans (step_opts s op)

theorem run_append (s : LRU V W) (ops1 ops2 : List (Op V)) :
    run s (ops1 ++ ops2) = run (run s ops1) ops2 := by
  unfold run
  rw [List.foldl_append]

theorem Inv.evict_world {s : LRU V W} (h : Inv s) {cb : EvictCallback V W}
    (hcb : s.opts.evictCallback = some cb) {k : String} (hk : s.keyMap k = none)
    (v : Option V) (ttl t : Int) (hfull : (s.list.length : Int) = s.size) :
    ∃ last, s.entries.getLast? = some last ∧
      (s.Set k v ttl t).1.world = cb last.key last.value s.world := by
  obtain ⟨e, he, _, _, _, _, _, _, _, hw⟩ :=
    Set_full_fields h hk v ttl t (by omega : s.size < (s.list.length : Int) + 1)
  refine ⟨s.mem e, ?_, ?_⟩
  · unfold LRU.entries
    rw [List.getLast?_map]
    unfold back at he
    rw [he]; rfl
  · rw [hw, hcb]

theorem fill_spec {s : LRU V W} (h : Inv s) (items : List (String × Option V × Int × Int))
    (hnd : (items.map (·.1)).Nodup) (hnew : ∀ x ∈ items, s.keyMap x.1 = none)
    (hroom : (s.list.length : Int) + items.length ≤ s.size) :
    (run s (setOps items)).entries =
      items.reverse.map (fun x => (⟨x.1, x.2.1, x.2.2.2 + x.2.2.1⟩ : Item V)) ++ s.entries ∧
    (run s (setOps items)).world = s.world ∧
    (∀ k, (∀ x ∈ items, x.1 ≠ k) → (run s (setOps items)).keyMap k = s.keyMap k) := by
  induction items generalizing s with
  | nil => exact ⟨by simp [setOps, run], rfl, fun k _ => rfl⟩
  | cons x xs ih =>
    have hx : s.keyMap x.1 = none := hnew x (List.mem_cons_self _ _)
    have hlen : ((s.list.length : Int) + 1) ≤ s.size := by
      simp only [List.length_cons, Nat.cast_add, Nat.cast_one] at hroom
      omega
    obtain ⟨hl, hkm, hmem, _, hw⟩ := Set_room_fields hx x.2.1 x.2.2.1 x.2.2.2 hlen
    have h1 : Inv (s.Set x.1 x.2.1 x.2.2.1 x.2.2.2).1 := h.Set _ _ _ _
    rw [List.map_cons, List.nodup_cons] at hnd
    have hnew1 : ∀ y ∈ xs, (s.Set x.1 x.2.1 x.2.2.1 x.2.2.2).1.keyMap y.1 = none := by
      intro y hy
      rw [hkm]
      have hne : y.1 ≠ x.1 := by
        intro hc
        exact hnd.1 (List.mem_map.mpr ⟨y, hy, hc⟩)
      simp only [hne, if_false]
      exact hnew y (List.mem_cons_of_mem _ hy)
    have hroom1 : ((s.Set x.1 x.2.1 x.2.2.1 x.2.2.2).1.list.length : Int) + xs.length
        ≤ (s.Set x.1 x.2.1 x.2.2.1 x.2.2.2).1.size := by
      rw [hl, Set_size]
      simp only [List.length_cons, Nat.cast_add, Nat.cast_one] at hroom ⊢
      omega
    obtain ⟨ie, iw, ik⟩ := ih h1 hnd.2 hnew1 hroom1
    have hent : (s.Set x.1 x.2.1 x.2.2.1 x.2.2.2).1.entries =
        ⟨x.1, x.2.1, x.2.2.2 + x.2.2.1⟩ :: s.entries := by
      unfold LRU.entries
      rw [hl, hmem, List.map_cons, Function.update_same,
        map_update_of_not_mem h.toWF.next_not_mem]
    have hrun : run s (setOps (x :: xs)) =
        run (s.Set x.1 x.2.1 x.2.2.1 x.2.2.2).1 (setOps xs) := rfl
    rw [hrun]
    refine ⟨?_, ?_, ?_⟩
    · rw [ie, hent]; simp
    · rw [iw, hw]
    · intro k hkx
      rw [ik k (fun y hy => hkx y (List.mem_cons_of_mem _ hy)), hkm]
      have hne : k ≠ x.1 := fun hc => hkx x (List.mem_cons_self _ _) hc.symm
      simp only [hne, if_false]

theorem Reachable.after {s : LRU V W} (h : Reachable s) (ops : List (Op V)) :
    Reachable (run s ops) := by
  obtain ⟨size, opts, w, c, ops0, hc, hr⟩ := h
  exact ⟨size, opts, w, c, ops0 ++ ops, hc, by rw [run_append, hr]⟩

theorem Inv.keyMap_of_nil {s : LRU V W} (h : Inv s) (hnil : s.list = []) (k : String) :
    s.keyMap k = none := by
  cases hk : s.keyMap k with
  | none => rfl
  | some a =>
    have := ((h.index k a).mp hk).1
    rw [hnil] at this
    cases this

/-- C6 (eviction callback): in a reachable state with a callback `cb`
configured, (1) a `Set` of a new key into a full cache runs the callback once,
on the key and value of the entry that was back-most before the `Set` (the
caller state becomes `cb last.key last.value world`); (2) a `Set` on an indexed
key, (3) a `Set` of a new key into a cache that is not full, (4) a `Get` and
(5) a deferred check leave the caller state unchanged; (6) starting from an
empty list, inserting `size` distinct keys and then one more new key leaves the
caller state `cb firstKey firstValue world`. -/
theorem eviction_callback (s : LRU V W) (h : Reachable s) (cb : EvictCallback V W)
    (hcb : s.opts.evictCallback = some cb) :
    (∀ k v ttl t, s.keyMap k = none → (s.list.length : Int) = s.size →
      ∃ last, s.entries.getLast? = some last ∧
        (s.Set k v ttl t).1.world = cb last.key last.value s.world) ∧
    (∀ k v ttl t, (∃ a, s.keyMap k = some a) → (s.Set k v ttl t).1.world = s.world) ∧
    (∀ k v ttl t, s.keyMap k = none → (s.list.length : Int) < s.size →
      (s.Set k v ttl t).1.world = s.world) ∧
    (∀ k t, (s.Get k t).1.world = s.world) ∧
    (∀ k t, (s.expiryCheck k t).world = s.world) ∧
    (∀ (first : String × Option V × Int × Int) (rest : List (String × Option V × Int × Int))
        (x : String × Option V × Int × Int),
      s.list = [] → ((first :: rest).length : Int) = s.size →
      ((first :: rest ++ [x]).map (·.1)).Nodup →
      (run s (setOps (first :: rest ++ [x]))).world = cb first.1 first.2.1 s.world) := by
  have hi := h.inv
  refine ⟨?_, ?_, ?_, ?_, ?_, ?_⟩
  · intro k v ttl t hk hfull
    exact hi.evict_world hcb hk v ttl t hfull
  · rintro k v ttl t ⟨a, hk⟩
    rw [Set_hit hk]
  · intro k v ttl t hk hlt
    exact (Set_room_fields hk v ttl t (by omega)).2.2.2.2
  · intro k t
    exact (Get_frame s k t).2.2.2.2.2
  · intro k t
    exact (expiryCheck_frame s k t).2.2.2.2.2
  · intro first rest x hnil hlen hnd
    have hsplit : setOps (first :: rest ++ [x]) =
        setOps (first :: rest) ++ [Op.set x.1 x.2.1 x.2.2.1 x.2.2.2] := by
      simp [setOps]
    rw [hsplit, run_append]
    rw [List.map_append, List.nodup_append] at hnd
    obtain ⟨hnd1, _, hdisj⟩ := hnd
    have hroom : (s.list.length : Int) + (first :: rest).length ≤ s.size := by
      rw [hnil, hlen]; simp
    obtain ⟨he, hw, hkm⟩ := fill_spec hi (first :: rest) hnd1
      (fun y _ => hi.keyMap_of_nil hnil y.1) hroom
    have hi2 : Inv (run s (setOps (first :: rest))) := hi.run _
    have hx : (run s (setOps (first :: rest))).keyMap x.1 = none := by
      rw [hkm x.1, hi.keyMap_of_nil hnil]
      intro y hy hc
      exact hdisj (List.mem_map.mpr ⟨y, hy, hc⟩) (by simp)
    have hfull : ((run s (setOps (first :: rest))).list.length : Int) =
        (run s (setOps (first :: rest))).size := by
      have hlen2 : (run s (setOps (first :: rest))).entries.length = (first :: rest).length := by
        rw [he]
        unfold LRU.entries
        rw [hnil]
        simp
      unfold LRU.entries at hlen2
      rw [List.length_map] at hlen2
      rw [hlen2, run_size, hlen]
    have hcb2 : (run s (setOps (first :: rest))).opts.evictCallback = some cb := by
      rw [run_opts, hcb]
    obtain ⟨last, hlast, hworld⟩ := hi2.evict_world hcb2 hx x.2.1 x.2.2.1 x.2.2.2 hfull
    have hlast2 : last = ⟨first.1, first.2.1, first.2.2.2 + first.2.2.1⟩ := by
      rw [he] at hlast
      unfold LRU.entries at hlast
      rw [hnil] at hlast
      simp at hlast
      exact hlast.symm
    show (step (run s (setOps (first :: rest))) (Op.set x.1 x.2.1 x.2.2.1 x.2.2.2)).world = _
    simp only [step]
    rw [hworld, hw, hlast2]

/-- Witness for C6: `TestEvictCallback` (capacity 3, insert `a`, `b`, `c`, then
`d`): the callback, which stores the evicted key, leaves `a`. -/
theorem eviction_callback_witness :
    Reachable cache3 ∧ cache3.opts.evictCallback = some (fun k _ _ => k) ∧
    (run cache3 (setOps ([("a", some 12, 3, 0), ("b", some 2, 3, 0), ("c", some 42, 2, 0)]
        ++ [("d", some 3, 2, 0)]))).world = "a" :=
  ⟨⟨3, evictOpts, "", cache3, [], rfl, rfl⟩, rfl,
    (eviction_callback cache3 ⟨3, evictOpts, "", cache3, [], rfl, rfl⟩ (fun k _ _ => k)
      rfl).2.2.2.2.2 ("a", some 12, 3, 0) [("b", some 2, 3, 0), ("c", some 42, 2, 0)]
      ("d", some 3, 2, 0) rfl rfl (by decide)⟩

/-! ### C7, C8, C9: `Get` -/

/-- C7 (`Get` on an expired entry): in a reachable state, for an indexed key `k`
(held by element `a`) and a clock reading strictly after the expiry of its
entry, `Get k` returns `(stored value, true)`; afterwards the entry is at the
back of the list, behind the other entries in their previous order; nothing is
removed (same length, same index) and no item is changed (same heap). -/
theorem get_on_expired_entry (s : LRU V W) (h : Reachable s) (k : String) (a : Addr)
    (hk : s.keyMap k = some a) (t : Int) (ht : (s.mem a).expiry < t) :
    (s.Get k t).2 = ((s.mem a).value, true) ∧
    (s.mem a).key = k ∧
    (s.Get k t).1.entries = s.entries.filter (fun it => decide (it.key ≠ k)) ++ [s.mem a] ∧
    (s.Get k t).1.entries.length = s.entries.length ∧
    (s.Get k t).1.keyMap = s.keyMap ∧
    (s.Get k t).1.mem = s.mem := by
  have hi := h.inv
  have hent : (s.Get k t).1.entries =
      s.entries.filter (fun it => decide (it.key ≠ k)) ++ [s.mem a] := by
    rw [Get_expired hk ht]
    exact hi.toWF.entries_toBack hk
  refine ⟨?_, ((hi.index k a).mp hk).2, hent, ?_, ?_, ?_⟩
  · rw [Get_expired hk ht]
  · rw [hent, List.length_append, List.length_singleton]
    exact hi.toWF.length_filter_entries hk
  · rw [Get_expired hk ht]
  · rw [Get_expired hk ht]

/-- Witness for C7: in the cache of `TestEvictCallback`, `c` (element 2) was set
at reading 0 with ttl 2; `Get c` at reading 3 finds it expired. -/
theorem get_on_expired_entry_witness :
    Reachable cacheABC ∧ cacheABC.keyMap "c" = some 2 ∧ (cacheABC.mem 2).expiry < 3 ∧
    (cacheABC.Get "c" 3).2 = ((cacheABC.mem 2).value, true) ∧
    (cacheABC.mem 2).key = "c" ∧
    (cacheABC.Get "c" 3).1.entries =
      cacheABC.entries.filter (fun it => decide (it.key ≠ "c")) ++ [cacheABC.mem 2] ∧
    (cacheABC.Get "c" 3).1.entries.length = cacheABC.entries.length ∧
    (cacheABC.Get "c" 3).1.keyMap = cacheABC.keyMap ∧
    (cacheABC.Get "c" 3).1.mem = cacheABC.mem :=
  ⟨⟨3, evictOpts, "", cache3, _, rfl, rfl⟩, rfl, by decide,
    get_on_expired_entry cacheABC ⟨3, evictOpts, "", cache3, _, rfl, rfl⟩ "c" 2 rfl 3 (by decide)⟩

/-- C8 (`Get` on a non-expired entry): in a reachable state, for an indexed key
`k` (held by element `a`) and a clock reading not strictly after the expiry of
its entry (equal to it included), `Get k` returns `(stored value, false)`;
afterwards the entry is at the front of the list, before the other entries in
their previous order; same length, same index, and no item is changed. -/
theorem get_on_live_entry (s : LRU V W) (h : Reachable s) (k : String) (a : Addr)
    (hk : s.keyMap k = some a) (t : Int) (ht : t ≤ (s.mem a).expiry) :
    (s.Get k t).2 = ((s.mem a).value, false) ∧
    (s.mem a).key = k ∧
    (s.Get k t).1.entries = s.mem a :: s.entries.filter (fun it => decide (it.key ≠ k)) ∧
    (s.Get k t).1.entries.length = s.entries.length ∧
    (s.Get k t).1.keyMap = s.keyMap ∧
    (s.Get k t).1.mem = s.mem := by
  have hi := h.inv
  have hent : (s.Get k t).1.entries =
      s.mem a :: s.entries.filter (fun it => decide (it.key ≠ k)) := by
    rw [Get_fresh hk ht]
    exact hi.toWF.entries_toFront hk
  refine ⟨?_, ((hi.index k a).mp hk).2, hent, ?_, ?_, ?_⟩
  · rw [Get_fresh hk ht]
  · rw [hent, List.length_cons]
    exact hi.toWF.length_filter_entries hk
  · rw [Get_fresh hk ht]
  · rw [Get_fresh hk ht]

/-- Witness for C8: in the cache of `TestEvictCallback`, `Get c` at reading 2,
exactly the expiry of `c`, finds it not expired. -/
theorem get_on_live_entry_witness :
    Reachable cacheABC ∧ cacheABC.keyMap "c" = some 2 ∧ (2 : Int) ≤ (cacheABC.mem 2).expiry ∧
    (cacheABC.Get "c" 2).2 = ((cacheABC.mem 2).value, false) ∧
    (cacheABC.mem 2).key = "c" ∧
    (cacheABC.Get "c" 2).1.entries =
      cacheABC.mem 2 :: cacheABC.entries.filter (fun it => decide (it.key ≠ "c")) ∧
    (cacheABC.Get "c" 2).1.entries.length = cacheABC.entries.length ∧
    (cacheABC.Get "c" 2).1.keyMap = cacheABC.keyMap ∧
    (cacheABC.Get "c" 2).1.mem = cacheABC.mem :=
  ⟨⟨3, evictOpts, "", cache3, _, rfl, rfl⟩, rfl, by decide,
    get_on_live_entry cacheABC ⟨3, evictOpts, "", cache3, _, rfl, rfl⟩ "c" 2 rfl 2 (by decide)⟩

/-- C9 (`Get` on a missing key): for a key that is not indexed, `Get` returns
`(nil, false)` and the whole state (list, index, items) is unchanged; this holds
in every state, reachable or not. -/
theorem get_on_missing_key (s : LRU V W) (k : String) (hk : s.keyMap k = none) (t : Int) :
    s.Get k t = (s, none, false) :=
  Get_miss hk t

/-- Witness for C9: `Get d` on the cache of `TestEvictCallback`. -/
theorem get_on_missing_key_witness :
    cacheABC.keyMap "d" = none ∧ cacheABC.Get "d" 7 = (cacheABC, none, false) :=
  ⟨rfl, get_on_missing_key cacheABC "d" rfl 7⟩

/-! ### C10: expiry is soft -/

theorem perm_moveToFront (e : Addr) (l : List Addr) : (moveToFront e l).Perm l := by
  unfold moveToFront
  split
  · rename_i he
    exact (List.perm_cons_erase he).symm
  · exact List.Perm.refl l

theorem perm_moveToBack (e : Addr) (l : List Addr) : (moveToBack e l).Perm l := by
  unfold moveToBack
  split
  · rename_i he
    exact List.perm_append_comm.trans (List.perm_cons_erase he).symm
  · exact List.Perm.refl l

theorem Get_list_perm (s : LRU V W) (k : String) (now : Int) :
    (s.Get k now).1.list.Perm s.list := by
  simp only [LRU.Get]
  split
  · split
    · exact perm_moveToBack _ _
    · exact perm_moveToFront _ _
  · exact List.Perm.refl _

theorem expiryCheck_list_perm (s : LRU V W) (k : String) (now : Int) :
    (s.expiryCheck k now).list.Perm s.list := by
  simp only [LRU.expiryCheck]
  split
  · split
    · exact perm_moveToBack _ _
    · exact List.Perm.refl _
  · exact List.Perm.refl _

theorem run_reads (s : LRU V W) (ops : List (Op V)) (hops : ∀ op ∈ ops, op.isSet = false) :
    (run s ops).keyMap = s.keyMap ∧ (run s ops).mem = s.mem ∧
    (run s ops).list.Perm s.list := by
  induction ops generalizing s with
  | nil => exact ⟨rfl, rfl, List.Perm.refl _⟩
  | cons op ops ih =>
    obtain ⟨ik, im, il⟩ := ih (step s op) (fun o ho => hops o (List.mem_cons_of_mem _ ho))
    have hop := hops op (List.mem_cons_self _ _)
    show (run (step s op) ops).keyMap = s.keyMap ∧ (run (step s op) ops).mem = s.mem ∧
      (run (step s op) ops).list.Perm s.list
    cases op with
    | set k v ttl now => cases hop
    | get k now =>
      obtain ⟨_, _, hk, hm, _, _⟩ := Get_frame s k now
      exact ⟨ik.trans hk, im.trans hm, il.trans (Get_list_perm s k now)⟩
    | check k now =>
      obtain ⟨_, _, hk, hm, _, _⟩ := expiryCheck_frame s k now
      exact ⟨ik.trans hk, im.trans hm, il.trans (expiryCheck_list_perm s k now)⟩

theorem Inv.Set_stores {s : LRU V W} (h : Inv s) (k : String) (v : Option V) (ttl t : Int) :
    ∃ a, (s.Set k v ttl t).1.keyMap k = some a ∧
      (s.Set k v ttl t).1.mem a = ⟨k, v, t + ttl⟩ := by
  cases hk : s.keyMap k with
  | some a =>
    refine ⟨a, ?_, ?_⟩
    · rw [Set_hit hk]; exact hk
    · rw [Set_hit hk]
      show Function.update s.mem a _ a = _
      rw [Function.update_same, ← ((h.index k a).mp hk).2]
  | none =>
    by_cases hlen : ((s.list.length : Int) + 1) ≤ s.size
    · obtain ⟨_, hkm, hmem, _, _⟩ := Set_room_fields hk v ttl t hlen
      exact ⟨s.next, by rw [hkm]; simp, by rw [hmem, Function.update_same]⟩
    · obtain ⟨e, _, _, _, hkey, _, hkm, hmem, _, _⟩ :=
        Set_full_fields h hk v ttl t (not_le.mp hlen)
      have hkey2 : ¬ k = (s.mem e).key := fun hc => hkey hc.symm
      exact ⟨s.next, by rw [hkm]; simp [hkey2], by rw [hmem, Function.update_same]⟩

/-- C10 (expiry is soft): after `Set k v ttl` at clock reading `t` in a
reachable state, any following sequence made only of `Get` calls and deferred
checks (any keys, any clock readings) leaves the index and every item unchanged
and only permutes the recency list (the resident entries are the same), and a
`Get k` at reading `t1` then returns `(v, expired)` with `expired` true exactly
when `t1 > t + ttl`. -/
theorem expiry_is_soft (s : LRU V W) (h : Reachable s) (k : String) (v : Option V)
    (ttl t : Int) (ops : List (Op V)) (hops : ∀ op ∈ ops, op.isSet = false) (t1 : Int) :
    (run (s.Set k v ttl t).1 ops).keyMap = (s.Set k v ttl t).1.keyMap ∧
    (run (s.Set k v ttl t).1 ops).mem = (s.Set k v ttl t).1.mem ∧
    (run (s.Set k v ttl t).1 ops).entries.Perm (s.Set k v ttl t).1.entries ∧
    ((run (s.Set k v ttl t).1 ops).Get k t1).2 = (v, decide (t1 > t + ttl)) := by
  obtain ⟨hkm, hmem, hperm⟩ := run_reads (s.Set k v ttl t).1 ops hops
  obtain ⟨a, hka, hma⟩ := h.inv.Set_stores k v ttl t
  refine ⟨hkm, hmem, ?_, ?_⟩
  · unfold LRU.entries
    rw [hmem]
    exact hperm.map _
  · have hka2 : (run (s.Set k v ttl t).1 ops).keyMap k = some a := by rw [hkm, hka]
    have hma2 : (run (s.Set k v ttl t).1 ops).mem a = ⟨k, v, t + ttl⟩ := by rw [hmem, hma]
    by_cases ht : t + ttl < t1
    · have ht2 : ((run (s.Set k v ttl t).1 ops).mem a).expiry < t1 := by rw [hma2]; exact ht
      rw [Get_expired hka2 ht2, hma2]
      simp [ht]
    · have ht2 : t1 ≤ ((run (s.Set k v ttl t).1 ops).mem a).expiry := by
        rw [hma2]; exact not_lt.mp ht
      rw [Get_fresh hka2 ht2, hma2]
      simp [ht]

/-- Witness for C10: `TestExpiry` (times in microseconds): `Set c 3` with ttl
500 at reading 0, a `Get c` at reading 100, the deferred check at reading 500
and a `Get a`, then `Get c` at reading 600. -/
theorem expiry_is_soft_witness :
    Reachable cacheABC ∧
    (∀ op ∈ [Op.get "c" 100, Op.check "c" 500, (Op.get "a" 550 : Op Nat)], op.isSet = false) ∧
    (run (cacheABC.Set "c" (some 3) 500 0).1
        [Op.get "c" 100, Op.check "c" 500, Op.get "a" 550]).keyMap =
      (cacheABC.Set "c" (some 3) 500 0).1.keyMap ∧
    (run (cacheABC.Set "c" (some 3) 500 0).1
        [Op.get "c" 100, Op.check "c" 500, Op.get "a" 550]).mem =
      (cacheABC.Set "c" (some 3) 500 0).1.mem ∧
    (run (cacheABC.Set "c" (some 3) 500 0).1
        [Op.get "c" 100, Op.check "c" 500, Op.get "a" 550]).entries.Perm
      (cacheABC.Set "c" (some 3) 500 0).1.entries ∧
    ((run (cacheABC.Set "c" (some 3) 500 0).1
        [Op.get "c" 100, Op.check "c" 500, Op.get "a" 550]).Get "c" 600).2 =
      (some 3, decide ((600 : Int) > 0 + 500)) :=
  ⟨⟨3, evictOpts, "", cache3, _, rfl, rfl⟩, by decide,
    expiry_is_soft cacheABC ⟨3, evictOpts, "", cache3, _, rfl, rfl⟩ "c" (some 3) 500 0
      [Op.get "c" 100, Op.check "c" 500, Op.get "a" 550] (by decide) 600⟩

/-! ### C13: construction -/

/-- C13 (construction): `NewLRUWithTTL size opts` returns nil exactly when
`size <= 0`; for every `size > 0` it returns a cache whose capacity is `size`,
whose options are `opts`, and whose recency list and key index are empty. -/
theorem construction (size : Int) (opts : Options V W) (w : W) :
    (NewLRUWithTTL size opts w = none ↔ size ≤ 0) ∧
    (0 < size → ∃ c, NewLRUWithTTL size opts w = some c ∧ c.size = size ∧ c.opts = opts ∧
      c.list = [] ∧ ∀ k, c.keyMap k = none) := by
  constructor
  · unfold NewLRUWithTTL
    split <;> simp [*]
  · intro hs
    unfold NewLRUWithTTL
    rw [if_neg (not_le.mpr hs)]
    exact ⟨_, rfl, rfl, rfl, rfl, fun _ => rfl⟩

/-! ### C14: idempotent demotion -/

theorem moveToBack_idem {a : Addr} {l : List Addr} (hn : l.Nodup) :
    moveToBack a (moveToBack a l) = moveToBack a l := by
  by_cases ha : a ∈ l
  · have hna : a ∉ l.erase a := fun hm => (hn.mem_erase_iff.mp hm).1 rfl
    have h1 : moveToBack a l = l.erase a ++ [a] := by unfold moveToBack; rw [if_pos ha]
    rw [h1]
    unfold moveToBack
    rw [if_pos (by simp), List.erase_append_right _ hna]
    simp
  · have h1 : moveToBack a l = l := by unfold moveToBack; rw [if_neg ha]
    rw [h1, h1]

/-- C14 (idempotent demotion): in a reachable state, for an indexed key `k`
(held by element `a`) whose entry is expired at clock reading `t`, and every
reading `t1 >= t`, `Get k` at `t` and then `Get k` at `t1` both return
`(stored value, true)`, and the second `Get` returns the state exactly as the
first one left it. -/
theorem idempotent_demotion (s : LRU V W) (h : Reachable s) (k : String) (a : Addr)
    (hk : s.keyMap k = some a) (t t1 : Int) (ht : (s.mem a).expiry < t) (ht1 : t ≤ t1) :
    (s.Get k t).2 = ((s.mem a).value, true) ∧
    (s.Get k t).1.Get k t1 = ((s.Get k t).1, (s.mem a).value, true) := by
  have hi := h.inv
  rw [Get_expired hk ht]
  refine ⟨rfl, ?_⟩
  have hk2 : ({ s with list := moveToBack a s.list } : LRU V W).keyMap k = some a := hk
  have ht2 : (({ s with list := moveToBack a s.list } : LRU V W).mem a).expiry < t1 :=
    lt_of_lt_of_le ht ht1
  rw [Get_expired hk2 ht2]
  dsimp only
  rw [moveToBack_idem hi.nodup]

/-- Witness for C14: in the cache of `TestEvictCallback`, `c` (element 2, expiry
2) is read at readings 3 and 9. -/
theorem idempotent_demotion_witness :
    Reachable cacheABC ∧ cacheABC.keyMap "c" = some 2 ∧ (cacheABC.mem 2).expiry < 3 ∧
    (3 : Int) ≤ 9 ∧
    (cacheABC.Get "c" 3).2 = ((cacheABC.mem 2).value, true) ∧
    (cacheABC.Get "c" 3).1.Get "c" 9 =
      ((cacheABC.Get "c" 3).1, (cacheABC.mem 2).value, true) :=
  ⟨⟨3, evictOpts, "", cache3, _, rfl, rfl⟩, rfl, by decide, by decide,
    idempotent_demotion cacheABC ⟨3, evictOpts, "", cache3, _, rfl, rfl⟩ "c" 2 rfl 3 9
      (by decide) (by decide)⟩

/-! ### C18: the deferred expiry check -/

/-- C18 (deferred expiry check): in a reachable state, the check for `k` at
clock reading `t` leaves the state unchanged when `k` is not indexed or `t` is
not strictly after the current expiry of its entry; when `k` is indexed (by
element `a`) and `t` is strictly after that expiry, its only effect is to move
the entry to the back of the list, the other entries keeping their order.  In
every case the index, every item (value and expiry), the number of entries and
the caller state (no callback call) are unchanged. -/
theorem deferred_check_semantics (s : LRU V W) (h : Reachable s) (k : String) (t : Int) :
    (s.keyMap k = none → s.expiryCheck k t = s) ∧
    (∀ a, s.keyMap k = some a → t ≤ (s.mem a).expiry → s.expiryCheck k t = s) ∧
    (∀ a, s.keyMap k = some a → (s.mem a).expiry < t →
      s.expiryCheck k t = { s with list := moveToBack a s.list } ∧
      (s.expiryCheck k t).entries =
        s.entries.filter (fun it => decide (it.key ≠ k)) ++ [s.mem a]) ∧
    (s.expiryCheck k t).keyMap = s.keyMap ∧
    (s.expiryCheck k t).mem = s.mem ∧
    (s.expiryCheck k t).world = s.world ∧
    (s.expiryCheck k t).entries.length = s.entries.length := by
  have hi := h.inv
  obtain ⟨_, _, hkm, hmem, _, hw⟩ := expiryCheck_frame s k t
  refine ⟨fun hk => expiryCheck_miss hk t, fun a hk ht => expiryCheck_fresh hk ht, ?_,
    hkm, hmem, hw, ?_⟩
  · intro a hk ht
    refine ⟨expiryCheck_expired hk ht, ?_⟩
    rw [expiryCheck_expired hk ht]
    exact hi.toWF.entries_toBack hk
  · unfold LRU.entries
    rw [List.length_map, List.length_map]
    exact (expiryCheck_list_perm s k t).length_eq

/-- Witness for C18: the deferred check of `c` (element 2, expiry 2) at reading
3 in the cache of `TestEvictCallback` moves `c` from the front to the back. -/
theorem deferred_check_semantics_witness :
    Reachable cacheABC ∧ cacheABC.keyMap "c" = some 2 ∧ (cacheABC.mem 2).expiry < 3 ∧
    cacheABC.expiryCheck "c" 3 = { cacheABC with list := moveToBack 2 cacheABC.list } ∧
    (cacheABC.expiryCheck "c" 3).entries =
      cacheABC.entries.filter (fun it => decide (it.key ≠ "c")) ++ [cacheABC.mem 2] :=
  ⟨⟨3, evictOpts, "", cache3, _, rfl, rfl⟩, rfl, by decide,
    (deferred_check_semantics cacheABC ⟨3, evictOpts, "", cache3, _, rfl, rfl⟩ "c" 3).2.2.1
      2 rfl (by decide)⟩

/-! ### C16: a demoted entry is the next one evicted -/

theorem back_moveToBack {a : Addr} {l : List Addr} (ha : a ∈ l) :
    back (moveToBack a l) = some a := by
  unfold moveToBack back
  rw [if_pos ha]
  simp

theorem dropLast_moveToBack {a : Addr} {l : List Addr} (ha : a ∈ l) :
    (moveToBack a l).dropLast = l.erase a := by
  unfold moveToBack
  rw [if_pos ha]
  simp

/-- C16 (an expired entry is the next eviction candidate): in a reachable state
whose list is full, for an indexed key `k` (held by element `a`) that is expired
at reading `t`, `Get k` reports `expired = true` and leaves the same state as
the deferred check for `k`; a `Set` of a key `k1` that is not indexed, right
after it, evicts exactly `k`: `k` leaves the index and the list, the other
entries stay in their order behind the new entry, a configured callback runs
once on `k` and its stored value, and a following `Get k` returns
`(nil, false)`. -/
theorem expired_entry_evicted_next (s : LRU V W) (h : Reachable s)
    (hfull : (s.list.length : Int) = s.size) (k : String) (a : Addr)
    (hk : s.keyMap k = some a) (t : Int) (ht : (s.mem a).expiry < t)
    (k1 : String) (hk1 : s.keyMap k1 = none) (v : Option V) (ttl t1 t2 : Int) :
    (s.Get k t).2.2 = true ∧
    s.expiryCheck k t = (s.Get k t).1 ∧
    ((s.Get k t).1.Set k1 v ttl t1).1.keyMap k = none ∧
    ((s.Get k t).1.Set k1 v ttl t1).1.entries =
      ⟨k1, v, t1 + ttl⟩ :: s.entries.filter (fun it => decide (it.key ≠ k)) ∧
    (∀ cb, s.opts.evictCallback = some cb →
      ((s.Get k t).1.Set k1 v ttl t1).1.world = cb k (s.mem a).value s.world) ∧
    ((s.Get k t).1.Set k1 v ttl t1).1.Get k t2 =
      (((s.Get k t).1.Set k1 v ttl t1).1, none, false) := by
  have hi := h.inv
  have ha : a ∈ s.list := ((hi.index k a).mp hk).1
  have hkey : (s.mem a).key = k := ((hi.index k a).mp hk).2
  have hget : (s.Get k t).1 = { s with list := moveToBack a s.list } := by
    rw [Get_expired hk ht]
  have hi1 : Inv (s.Get k t).1 := hi.Get k t
  rw [hget] at hi1 ⊢
  have hk1b : ({ s with list := moveToBack a s.list } : LRU V W).keyMap k1 = none := hk1
  have hfull1 : ({ s with list := moveToBack a s.list } : LRU V W).size <
      ((({ s with list := moveToBack a s.list } : LRU V W).list.length : Int)) + 1 := by
    show s.size < ((moveToBack a s.list).length : Int) + 1
    rw [length_moveToBack]; omega
  obtain ⟨e, he, _, _, _, hl, hkm, hmem, _, hw⟩ := Set_full_fields hi1 hk1b v ttl t1 hfull1
  have hea : e = a := by
    have hb : back (moveToBack a s.list) = some e := he
    rw [back_moveToBack ha] at hb
    exact (Option.some.inj hb).symm
  subst hea
  have hkm2 : ({ s with list := moveToBack e s.list } : LRU V W).Set k1 v ttl t1 |>.1.keyMap k
      = none := by
    rw [hkm]
    show (if k = (s.mem e).key then none else _) = none
    rw [if_pos hkey.symm]
  refine ⟨by rw [Get_expired hk ht], by rw [expiryCheck_expired hk ht], hkm2, ?_, ?_, ?_⟩
  · unfold LRU.entries
    rw [hl, hmem]
    show List.map (Function.update s.mem s.next _) (s.next :: (moveToBack e s.list).dropLast) = _
    rw [dropLast_moveToBack ha, List.map_cons, Function.update_same]
    have hnot : s.next ∉ s.list.erase e :=
      fun hm => hi.toWF.next_not_mem (List.mem_of_mem_erase hm)
    rw [map_update_of_not_mem hnot, hi.toWF.erase_entries hk]
    rfl
  · intro cb hcb
    rw [hw]
    show (match s.opts.evictCallback with
      | some cb => cb (s.mem e).key (s.mem e).value s.world
      | none => s.world) = _
    rw [hcb, hkey]
  · exact Get_miss hkm2 t2

/-- Witness for C16: in the full cache of `TestEvictCallback` (order `c, b, a`),
`c` (element 2, expiry 2) is read at reading 3 and then `d` is inserted: `c` is
evicted, not the least recently used `a`. -/
theorem expired_entry_evicted_next_witness :
    Reachable cacheABC ∧ (cacheABC.list.length : Int) = cacheABC.size ∧
    cacheABC.keyMap "c" = some 2 ∧ (cacheABC.mem 2).expiry < 3 ∧
    cacheABC.keyMap "d" = none ∧
    (cacheABC.Get "c" 3).2.2 = true ∧
    cacheABC.expiryCheck "c" 3 = (cacheABC.Get "c" 3).1 ∧
    ((cacheABC.Get "c" 3).1.Set "d" (some 3) 2 4).1.keyMap "c" = none ∧
    ((cacheABC.Get "c" 3).1.Set "d" (some 3) 2 4).1.entries =
      ⟨"d", some 3, 4 + 2⟩ :: cacheABC.entries.filter (fun it => decide (it.key ≠ "c")) ∧
    (∀ cb, cacheABC.opts.evictCallback = some cb →
      ((cacheABC.Get "c" 3).1.Set "d" (some 3) 2 4).1.world =
        cb "c" (cacheABC.mem 2).value cacheABC.world) ∧
    ((cacheABC.Get "c" 3).1.Set "d" (some 3) 2 4).1.Get "c" 5 =
      (((cacheABC.Get "c" 3).1.Set "d" (some 3) 2 4).1, none, false) :=
  ⟨⟨3, evictOpts, "", cache3, _, rfl, rfl⟩, rfl, rfl, by decide, rfl,
    expired_entry_evicted_next cacheABC ⟨3, evictOpts, "", cache3, _, rfl, rfl⟩ rfl "c" 2 rfl 3
      (by decide) "d" rfl (some 3) 2 4 5⟩

/-! ### C15: deferred checks of superseded `Set`s -/

theorem lastExpiry_snoc (k : String) (ops : List (Op V)) (op : Op V) :
    lastExpiry k (ops ++ [op]) = (match Op.expires k op with
      | some e => some e
      | none => lastExpiry k ops) := by
  unfold lastExpiry
  rw [List.reverse_append, List.reverse_singleton, List.singleton_append, List.findSome?_cons]
  cases Op.expires k op <;> rfl

theorem expiry_step {s : LRU V W} (h : Inv s) (ops : List (Op V))
    (J : ∀ k a, s.keyMap k = some a → lastExpiry k ops = some (s.mem a).expiry) (op : Op V) :
    ∀ k a, (step s op).keyMap k = some a →
      lastExpiry k (ops ++ [op]) = some ((step s op).mem a).expiry := by
  intro k a hka
  rw [lastExpiry_snoc]
  cases op with
  | get k0 now =>
    obtain ⟨_, _, hkm, hmem, _, _⟩ := Get_frame s k0 now
    simp only [step] at hka ⊢
    rw [hkm] at hka
    rw [hmem]
    exact J k a hka
  | check k0 now =>
    obtain ⟨_, _, hkm, hmem, _, _⟩ := expiryCheck_frame s k0 now
    simp only [step] at hka ⊢
    rw [hkm] at hka
    rw [hmem]
    exact J k a hka
  | set k0 v ttl now =>
    simp only [step, Op.expires] at hka ⊢
    cases hk0 : s.keyMap k0 with
    | some a0 =>
      rw [Set_hit hk0] at hka ⊢
      dsimp only at hka ⊢
      by_cases hkk : k0 = k
      · subst hkk
        rw [hk0] at hka
        cases hka
        simp
      · have hne : a ≠ a0 := by
          rintro rfl
          have h1 := ((h.index k a).mp hka).2
          have h2 := ((h.index k0 a).mp hk0).2
          exact hkk (h2.symm.trans h1)
        simp only [hkk, if_false, Function.update_noteq hne]
        exact J k a hka
    | none =>
      by_cases hlen : ((s.list.length : Int) + 1) ≤ s.size
      · obtain ⟨_, hkm, hmem, _, _⟩ := Set_room_fields hk0 v ttl now hlen
        rw [hkm] at hka
        rw [hmem]
        by_cases hkk : k0 = k
        · subst hkk
          simp only [if_true, Option.some.injEq] at hka
          subst hka
          simp
        · have hkk2 : ¬ k = k0 := fun hc => hkk hc.symm
          simp only [hkk2, if_false] at hka
          have hne : a ≠ s.next := Nat.ne_of_lt (h.fresh a ((h.index k a).mp hka).1)
          simp only [hkk, if_false, Function.update_noteq hne]
          exact J k a hka
      · obtain ⟨e, _, _, _, _, _, hkm, hmem, _, _⟩ :=
          Set_full_fields h hk0 v ttl now (not_le.mp hlen)
        rw [hkm] at hka
        rw [hmem]
        by_cases hke : k = (s.mem e).key
        · simp only [hke, if_true] at hka
          cases hka
        · simp only [hke, if_false] at hka
          by_cases hkk : k0 = k
          · subst hkk
            simp only [if_true, Option.some.injEq] at hka
            subst hka
            simp
          · have hkk2 : ¬ k = k0 := fun hc => hkk hc.symm
            simp only [hkk2, if_false] at hka
            have hne : a ≠ s.next := Nat.ne_of_lt (h.fresh a ((h.index k a).mp hka).1)
            simp only [hkk, if_false, Function.update_noteq hne]
            exact J k a hka

theorem expiry_run {c : LRU V W} (hc : Inv c) (hempty : ∀ k, c.keyMap k = none)
    (ops : List (Op V)) :
    ∀ k a, (run c ops).keyMap k = some a →
      lastExpiry k ops = some ((run c ops).mem a).expiry := by
  induction ops using List.reverseRecOn with
  | nil =>
    intro k a hka
    rw [show run c [] = c from rfl, hempty k] at hka
    cases hka
  | append_singleton ops op ih =>
    rw [run_snoc]
    exact expiry_step (hc.run ops) ops ih op

/-- Counterexample for C15: in a cache of capacity 3, `Set b` at reading 0, then
`Set a` with ttl 10 at reading 1 (its deferred check is due at reading 11), then
`Set a` with ttl 1 at reading 2, which supersedes it (expiry 3).  When the check
of the first `Set a` fires at reading 11 it finds `a` past its current expiry
and moves it from the front of the list to the back: the state changes. -/
theorem stale_check_changes_state :
    (run cache3 ([Op.set "b" (some 1) 100 0] ++ [Op.set "a" (some 1) 10 1] ++
        [Op.set "a" (some 2) 1 2])).expiryCheck "a" 11 ≠
      run cache3 ([Op.set "b" (some 1) 100 0] ++ [Op.set "a" (some 1) 10 1] ++
        [Op.set "a" (some 2) 1 2]) ∧
    (run cache3 ([Op.set "b" (some 1) 100 0] ++ [Op.set "a" (some 1) 10 1] ++
        [Op.set "a" (some 2) 1 2])).keys = ["a", "b"] ∧
    ((run cache3 ([Op.set "b" (some 1) 100 0] ++ [Op.set "a" (some 1) 10 1] ++
        [Op.set "a" (some 2) 1 2])).expiryCheck "a" 11).keys = ["b", "a"] := by
  refine ⟨?_, by decide, by decide⟩
  intro h
  have hk := congrArg LRU.keys h
  revert hk
  decide

/-- C15, amended (deferred checks of superseded `Set`s): after any sequence of
operations on a fresh cache, a deferred check for `k` firing at reading `tf`
(whichever `Set` on `k` scheduled it) leaves the state unchanged when `k` is not
indexed any more, and when `tf` is not strictly after the expiry written by the
most recent `Set` on `k`; when `k` is indexed, that expiry is the current expiry
of its entry, and a check strictly after it moves the entry to the back of the
list and changes nothing else. -/
theorem stale_check_semantics (n : Int) (opts : Options V W) (w : W) (c : LRU V W)
    (hc : NewLRUWithTTL n opts w = some c) (ops : List (Op V)) (k : String) (tf : Int) :
    ((run c ops).keyMap k = none → (run c ops).expiryCheck k tf = run c ops) ∧
    (∀ e, lastExpiry k ops = some e → tf ≤ e → (run c ops).expiryCheck k tf = run c ops) ∧
    (∀ a, (run c ops).keyMap k = some a →
      lastExpiry k ops = some ((run c ops).mem a).expiry ∧
      (((run c ops).mem a).expiry < tf →
        (run c ops).expiryCheck k tf =
          { run c ops with list := moveToBack a (run c ops).list })) := by
  have hexp := expiry_run (Inv.new hc) (new_keyMap hc) ops k
  refine ⟨fun hk => expiryCheck_miss hk tf, ?_, ?_⟩
  · intro e he hle
    cases hk : (run c ops).keyMap k with
    | none => exact expiryCheck_miss hk tf
    | some a =>
      have := hexp a hk
      rw [he] at this
      have hea : e = ((run c ops).mem a).expiry := Option.some.inj this
      exact expiryCheck_fresh hk (hea ▸ hle)
  · intro a hk
    exact ⟨hexp a hk, fun ht => expiryCheck_expired hk ht⟩

/-- Witness for C15, amended: `Set b`, `Set a` with ttl 10 at reading 1, then
`Set a` with ttl 20 at reading 2 (expiry 22); the check of the first `Set a`,
firing at reading 11, changes nothing. -/
theorem stale_check_semantics_witness :
    lastExpiry "a" [Op.set "b" (some 1) 100 0, Op.set "a" (some 1) 10 1,
      (Op.set "a" (some 2) 20 2 : Op Nat)] = some 22 ∧ (11 : Int) ≤ 22 ∧
    (run cache3 [Op.set "b" (some 1) 100 0, Op.set "a" (some 1) 10 1,
        Op.set "a" (some 2) 20 2]).expiryCheck "a" 11 =
      run cache3 [Op.set "b" (some 1) 100 0, Op.set "a" (some 1) 10 1,
        Op.set "a" (some 2) 20 2] :=
  ⟨by decide, by decide,
    (stale_check_semantics 3 evictOpts "" cache3 rfl
      [Op.set "b" (some 1) 100 0, Op.set "a" (some 1) 10 1, Op.set "a" (some 2) 20 2]
      "a" 11).2.1 22 (by decide) (by decide)⟩

/-! ### C19: no under-filling -/

theorem setKeys_snoc (ops : List (Op V)) (op : Op V) :
    setKeys (ops ++ [op]) = setKeys ops ++ (Op.setKey op).toList := by
  unfold setKeys
  rw [List.filterMap_append]
  cases h : Op.setKey op <;> simp [List.filterMap, h]

theorem distinct_snoc_read (ops : List (Op V)) (op : Op V) (h : Op.setKey op = none) :
    distinctSetKeys (ops ++ [op]) = distinctSetKeys ops := by
  unfold distinctSetKeys
  rw [setKeys_snoc, h]
  simp

theorem distinct_snoc_old (ops : List (Op V)) (op : Op V) (k : String)
    (h : Op.setKey op = some k) (hk : k ∈ setKeys ops) :
    distinctSetKeys (ops ++ [op]) = distinctSetKeys ops := by
  unfold distinctSetKeys
  rw [setKeys_snoc, h, ← List.card_toFinset, ← List.card_toFinset]
  congr 1
  ext x
  simp only [Option.toList, List.toFinset_append, List.toFinset_cons, List.toFinset_nil,
    Finset.mem_union, List.mem_toFinset, Finset.mem_insert, Finset.not_mem_empty, or_false]
  constructor
  · rintro (hx | rfl)
    · exact hx
    · exact hk
  · exact Or.inl

theorem distinct_snoc_new (ops : List (Op V)) (op : Op V) (k : String)
    (h : Op.setKey op = some k) (hk : k ∉ setKeys ops) :
    distinctSetKeys (ops ++ [op]) = distinctSetKeys ops + 1 := by
  unfold distinctSetKeys
  rw [setKeys_snoc, h, ← List.card_toFinset, ← List.card_toFinset]
  have : (setKeys ops ++ (some k).toList).toFinset = insert k (setKeys ops).toFinset := by
    ext x
    simp only [Option.toList, List.toFinset_append, List.toFinset_cons, List.toFinset_nil,
      Finset.mem_union, List.mem_toFinset, Finset.mem_insert, Finset.not_mem_empty, or_false]
    exact Or.comm
  rw [this, Finset.card_insert_of_not_mem (by simpa using hk)]

theorem count_inv {c : LRU V W} (hc : Inv c) (hnil : c.list = []) (ops : List (Op V)) :
    (∀ k a, (run c ops).keyMap k = some a → k ∈ setKeys ops) ∧
    (((run c ops).list.length : Int) < c.size →
      ∀ k ∈ setKeys ops, ∃ a, (run c ops).keyMap k = some a) ∧
    ((run c ops).list.length : Int) = min c.size (distinctSetKeys ops : Int) := by
  induction ops using List.reverseRecOn with
  | nil =>
    have hpos := hc.size_pos
    refine ⟨?_, ?_, ?_⟩
    · intro k a hka
      rw [show run c [] = c from rfl, hc.keyMap_of_nil hnil k] at hka
      cases hka
    · intro _ k hk
      cases hk
    · rw [show run c [] = c from rfl, hnil]
      simp [distinctSetKeys, setKeys]
      omega
  | append_singleton ops op ih =>
    obtain ⟨h1, h2, h3⟩ := ih
    have hs : Inv (run c ops) := hc.run ops
    have hsize : (run c ops).size = c.size := run_size c ops
    have hle := hs.len_le
    rw [run_snoc]
    cases op with
    | get k0 now =>
      obtain ⟨_, _, hkm, _, _, _⟩ := Get_frame (run c ops) k0 now
      have hlen := (Get_list_perm (run c ops) k0 now).length_eq
      simp only [step]
      rw [hkm, hlen, setKeys_snoc, distinct_snoc_read ops (Op.get k0 now) rfl]
      simpa [Op.setKey] using ⟨h1, h2, h3⟩
    | check k0 now =>
      obtain ⟨_, _, hkm, _, _, _⟩ := expiryCheck_frame (run c ops) k0 now
      have hlen := (expiryCheck_list_perm (run c ops) k0 now).length_eq
      simp only [step]
      rw [hkm, hlen, setKeys_snoc, distinct_snoc_read ops (Op.check k0 now) rfl]
      simpa [Op.setKey] using ⟨h1, h2, h3⟩
    | set k v ttl t =>
      simp only [step]
      rw [setKeys_snoc]
      simp only [Op.setKey, Option.toList, List.mem_append, List.mem_singleton]
      cases hk : (run c ops).keyMap k with
      | some a =>
        rw [Set_hit hk]
        dsimp only
        rw [length_moveToFront, distinct_snoc_old ops (Op.set k v ttl t) k rfl (h1 k a hk)]
        refine ⟨fun k1 a1 hk1 => Or.inl (h1 k1 a1 hk1), ?_, h3⟩
        intro hlt k1 hk1
        rcases hk1 with hk1 | rfl
        · exact h2 hlt k1 hk1
        · exact ⟨a, hk⟩
      | none =>
        by_cases hlen : (((run c ops).list.length : Int) + 1) ≤ (run c ops).size
        · obtain ⟨hl, hkm, _, _, _⟩ := Set_room_fields hk v ttl t hlen
          have hlt : ((run c ops).list.length : Int) < c.size := by omega
          have hnew : k ∉ setKeys ops := by
            intro hm
            obtain ⟨a, ha⟩ := h2 hlt k hm
            rw [hk] at ha; cases ha
          rw [hl, hkm, distinct_snoc_new ops (Op.set k v ttl t) k rfl hnew]
          refine ⟨?_, ?_, ?_⟩
          · intro k1 a1 hk1
            by_cases hkk : k1 = k
            · exact Or.inr hkk
            · simp only [hkk, if_false] at hk1
              exact Or.inl (h1 k1 a1 hk1)
          · intro _ k1 hk1
            by_cases hkk : k1 = k
            · exact ⟨(run c ops).next, by simp [hkk]⟩
            · rcases hk1 with hk1 | hk1
              · obtain ⟨a1, ha1⟩ := h2 hlt k1 hk1
                exact ⟨a1, by simp only [hkk, if_false]; exact ha1⟩
              · exact absurd hk1 hkk
          · simp only [List.length_cons, Nat.cast_add, Nat.cast_one]
            omega
        · obtain ⟨e, _, hem, _, _, hl, hkm, _, _, _⟩ :=
            Set_full_fields hs hk v ttl t (not_le.mp hlen)
          have hpos := List.length_pos_of_mem hem
          have hlen2 : (((run c ops).Set k v ttl t).1.list.length : Int) =
              ((run c ops).list.length : Int) := by
            rw [hl, List.length_cons, List.length_dropLast]
            omega
          have hmono : distinctSetKeys ops ≤
              distinctSetKeys (ops ++ [Op.set k v ttl t]) := by
            by_cases hm : k ∈ setKeys ops
            · rw [distinct_snoc_old ops (Op.set k v ttl t) k rfl hm]
            · rw [distinct_snoc_new ops (Op.set k v ttl t) k rfl hm]; omega
          rw [hlen2, hkm]
          refine ⟨?_, ?_, ?_⟩
          · intro k1 a1 hk1
            by_cases hke : k1 = ((run c ops).mem e).key
            · simp only [hke, if_true] at hk1
              cases hk1
            · simp only [hke, if_false] at hk1
              by_cases hkk : k1 = k
              · exact Or.inr hkk
              · simp only [hkk, if_false] at hk1
                exact Or.inl (h1 k1 a1 hk1)
          · intro hlt
            omega
          · omega

/-- C19 (no under-filling): after any sequence of `Set`, `Get` and deferred
checks on a fresh cache of capacity `n`, the number of resident entries is
`min n d`, with `d` the number of distinct keys passed to `Set` in the sequence.
Moreover every further operation either keeps every indexed key indexed, or is
a `Set` of a key that is not indexed into a full cache, which removes exactly
the back-most entry (its key leaves the index, every other indexed key stays,
and the number of entries is unchanged). -/
theorem no_under_filling (n : Int) (opts : Options V W) (w : W) (c : LRU V W)
    (hc : NewLRUWithTTL n opts w = some c) (ops : List (Op V)) :
    ((run c ops).list.length : Int) = min n (distinctSetKeys ops : Int) ∧
    ∀ op : Op V,
      (∀ k1 a, (run c ops).keyMap k1 = some a → (step (run c ops) op).keyMap k1 = some a) ∨
      (∃ k v ttl t, op = Op.set k v ttl t ∧ (run c ops).keyMap k = none ∧
        ((run c ops).list.length : Int) = n ∧
        ∃ last, (run c ops).entries.getLast? = some last ∧
          (step (run c ops) op).keyMap last.key = none ∧
          (step (run c ops) op).list.length = (run c ops).list.length ∧
          ∀ k1 a, k1 ≠ last.key → (run c ops).keyMap k1 = some a →
            (step (run c ops) op).keyMap k1 = some a) := by
  have hc0 : Inv c := Inv.new hc
  have hnil : c.list = [] := by
    unfold NewLRUWithTTL at hc
    split at hc
    · cases hc
    · cases hc; rfl
  have hsz : (run c ops).size = n := by rw [run_size, new_size hc]
  have hs : Inv (run c ops) := hc0.run ops
  refine ⟨?_, ?_⟩
  · have := (count_inv hc0 hnil ops).2.2
    rw [new_size hc] at this
    exact this
  · intro op
    cases op with
    | get k0 now =>
      left
      intro k1 a hk1
      simp only [step]
      rw [(Get_frame (run c ops) k0 now).2.2.1]; exact hk1
    | check k0 now =>
      left
      intro k1 a hk1
      simp only [step]
      rw [(expiryCheck_frame (run c ops) k0 now).2.2.1]; exact hk1
    | set k v ttl t =>
      simp only [step]
      cases hk : (run c ops).keyMap k with
      | some a0 =>
        left
        intro k1 a hk1
        rw [Set_hit hk]; exact hk1
      | none =>
        by_cases hlen : (((run c ops).list.length : Int) + 1) ≤ (run c ops).size
        · left
          intro k1 a hk1
          rw [(Set_room_fields hk v ttl t hlen).2.1]
          have hne : k1 ≠ k := by
            rintro rfl
            rw [hk] at hk1; cases hk1
          simp only [hne, if_false]
          exact hk1
        · right
          obtain ⟨e, he, hem, _, hkey, hl, hkm, _, _, _⟩ :=
            Set_full_fields hs hk v ttl t (not_le.mp hlen)
          have hpos := List.length_pos_of_mem hem
          have hle := hs.len_le
          refine ⟨k, v, ttl, t, rfl, hk, by omega, (run c ops).mem e, ?_, ?_, ?_, ?_⟩
          · unfold LRU.entries
            rw [List.getLast?_map]
            unfold back at he
            rw [he]; rfl
          · rw [hkm]; simp
          · rw [hl, List.length_cons, List.length_dropLast]
            omega
          · intro k1 a hne hk1
            rw [hkm]
            have hne2 : k1 ≠ k := by
              rintro rfl
              rw [hk] at hk1; cases hk1
            simp only [hne, hne2, if_false]
            exact hk1

/-- Witness for C19: the sequence of `TestSetOutRange` (`Set a, b, c, a, d, e`,
capacity 3, five distinct keys) leaves `min 3 5` entries. -/
theorem no_under_filling_witness :
    ((run cache3 [Op.set "a" (some 1) 3 0, Op.set "b" (some 2) 5 0, Op.set "c" (some 3) 2 0,
        Op.set "a" (some 5) 5 0, Op.set "d" (some 7) 1 0,
        Op.set "e" (some 10) 5 0]).list.length : Int) =
      min 3 (distinctSetKeys [Op.set "a" (some 1) 3 0, Op.set "b" (some 2) 5 0,
        Op.set "c" (some 3) 2 0, Op.set "a" (some 5) 5 0, Op.set "d" (some 7) 1 0,
        (Op.set "e" (some 10) 5 0 : Op Nat)] : Int) :=
  (no_under_filling 3 evictOpts "" cache3 rfl _).1

/-! ### Keys of the recency list -/

theorem keys_eq_entries (s : LRU V W) : s.keys = s.entries.map Item.key := by
  unfold LRU.keys LRU.entries
  rw [List.map_map]
  rfl

theorem Inv.mem_keys {s : LRU V W} (h : Inv s) (k : String) :
    k ∈ s.keys ↔ ∃ a, s.keyMap k = some a := by
  unfold LRU.keys
  rw [List.mem_map]
  constructor
  · rintro ⟨a, ha⟩
    exact ⟨a, (h.index k a).mpr ha⟩
  · rintro ⟨a, ha⟩
    exact ⟨a, (h.index k a).mp ha⟩

theorem Inv.not_mem_keys {s : LRU V W} (h : Inv s) {k : String} (hk : s.keyMap k = none) :
    k ∉ s.keys := by
  rw [h.mem_keys]
  rintro ⟨a, ha⟩
  rw [hk] at ha; cases ha

theorem Inv.keys_nodup {s : LRU V W} (h : Inv s) : s.keys.Nodup := by
  unfold LRU.keys
  refine List.Nodup.map_on ?_ h.nodup
  intro a ha b hb hab
  have h1 := (h.index _ a).mpr ⟨ha, rfl⟩
  have h2 := (h.index _ b).mpr ⟨hb, hab.symm⟩
  rw [h1] at h2
  exact Option.some.inj h2

theorem Inv.keys_erase {s : LRU V W} (h : Inv s) (k : String) :
    (s.entries.filter (fun it => decide (it.key ≠ k))).map Item.key = s.keys.erase k := by
  rw [h.keys_nodup.erase_eq_filter, keys_eq_entries, List.filter_map]
  congr 1
  apply List.filter_congr
  intro x _
  by_cases hx : x.key = k <;> simp [hx, bne]

theorem Inv.keys_Set_hit {s : LRU V W} (h : Inv s) {k : String} {a : Addr}
    (hk : s.keyMap k = some a) (v : Option V) (ttl t : Int) :
    (s.Set k v ttl t).1.keys = k :: s.keys.erase k := by
  have hkey : (s.mem a).key = k := ((h.index k a).mp hk).2
  have ha := ((h.index k a).mp hk).1
  have hna : a ∉ s.list.erase a := fun hm => (h.nodup.mem_erase_iff.mp hm).1 rfl
  rw [keys_eq_entries, Set_hit hk]
  show ((moveToFront a s.list).map
      (Function.update s.mem a { s.mem a with value := v, expiry := t + ttl })).map Item.key = _
  unfold moveToFront
  rw [if_pos ha, List.map_cons, Function.update_same, map_update_of_not_mem hna,
    h.toWF.erase_entries hk, List.map_cons, h.keys_erase k]
  dsimp only
  rw [hkey]

theorem Inv.keys_Set_room {s : LRU V W} (h : Inv s) {k : String} (hk : s.keyMap k = none)
    (v : Option V) (ttl t : Int) (hlen : ((s.list.length : Int) + 1) ≤ s.size) :
    (s.Set k v ttl t).1.keys = k :: s.keys := by
  obtain ⟨hl, _, hmem, _, _⟩ := Set_room_fields hk v ttl t hlen
  rw [keys_eq_entries, keys_eq_entries]
  unfold LRU.entries
  rw [hl, hmem, List.map_cons, Function.update_same,
    map_update_of_not_mem h.toWF.next_not_mem, List.map_cons]

theorem Inv.keys_Set_full {s : LRU V W} (h : Inv s) {k : String} (hk : s.keyMap k = none)
    (v : Option V) (ttl t : Int) (hfull : s.size < (s.list.length : Int) + 1) :
    (s.Set k v ttl t).1.keys = k :: s.keys.dropLast := by
  obtain ⟨e, _, _, _, _, hl, _, hmem, _, _⟩ := Set_full_fields h hk v ttl t hfull
  have hdrop : s.next ∉ s.list.dropLast :=
    fun hm => h.toWF.next_not_mem (List.mem_of_mem_dropLast hm)
  rw [keys_eq_entries, keys_eq_entries]
  unfold LRU.entries
  rw [hl, hmem, List.map_cons, Function.update_same, map_update_of_not_mem hdrop,
    List.map_cons, List.map_dropLast, List.map_dropLast]

theorem Inv.keys_Get_fresh {s : LRU V W} (h : Inv s) {k : String} {a : Addr}
    (hk : s.keyMap k = some a) {t : Int} (ht : t ≤ (s.mem a).expiry) :
    (s.Get k t).1.keys = k :: s.keys.erase k := by
  have hkey : (s.mem a).key = k := ((h.index k a).mp hk).2
  rw [keys_eq_entries, Get_fresh hk ht]
  show ((moveToFront a s.list).map s.mem).map Item.key = _
  rw [h.toWF.entries_toFront hk, List.map_cons, h.keys_erase k, hkey]

theorem keys_length (s : LRU V W) : s.keys.length = s.list.length := by
  unfold LRU.keys
  rw [List.length_map]

theorem keys_step {s : LRU V W} (h : Inv s) (op : Op V) (hd : op.noDemotion s = true) :
    (step s op).keys = refStep s.size s.keys op := by
  cases op with
  | set k v ttl t =>
    simp only [step, refStep]
    cases hk : s.keyMap k with
    | some a =>
      rw [if_pos ((h.mem_keys k).mpr ⟨a, hk⟩)]
      exact h.keys_Set_hit hk v ttl t
    | none =>
      rw [if_neg (h.not_mem_keys hk), keys_length]
      by_cases hlen : ((s.list.length : Int) + 1) ≤ s.size
      · rw [if_pos (by omega)]
        exact h.keys_Set_room hk v ttl t hlen
      · rw [if_neg (by omega)]
        exact h.keys_Set_full hk v ttl t (not_le.mp hlen)
  | get k t =>
    simp only [step, refStep]
    simp only [Op.noDemotion, Bool.not_eq_true'] at hd
    cases hk : s.keyMap k with
    | none =>
      rw [if_neg (h.not_mem_keys hk), Get_miss hk]
    | some a =>
      rw [if_pos ((h.mem_keys k).mpr ⟨a, hk⟩)]
      by_cases ht : (s.mem a).expiry < t
      · rw [Get_expired hk ht] at hd
        cases hd
      · exact h.keys_Get_fresh hk (not_lt.mp ht)
  | check k t =>
    simp only [step, refStep]
    simp only [Op.noDemotion, decide_eq_true_eq] at hd
    unfold LRU.keys
    rw [hd, (expiryCheck_frame s k t).2.2.2.1]

theorem keys_run_ref {s : LRU V W} (h : Inv s) (ops : List (Op V))
    (hd : noDemotion s ops = true) :
    (run s ops).keys = ops.foldl (refStep s.size) s.keys := by
  induction ops generalizing s with
  | nil => rfl
  | cons op ops ih =>
    simp only [noDemotion, Bool.and_eq_true] at hd
    show (run (step s op) ops).keys = ops.foldl (refStep s.size) (refStep s.size s.keys op)
    rw [ih (h.step op) hd.2, step_size, keys_step h op hd.1]

/-! ### C12: refinement of the reference LRU when nothing is demoted -/

/-- C12 (pure LRU refinement when nothing is expired): for a fresh cache of
capacity `n` and every sequence of operations in which no `Get` reports
`expired = true` and no deferred check moves an entry, the keys of the recency
list, front to back, are the result of the reference LRU: keys ordered by most
recent touch (`Set`, or `Get` on a resident key), a `Set` of a new key into a
full cache dropping the least recently touched key. -/
theorem lru_refinement (n : Int) (opts : Options V W) (w : W) (c : LRU V W)
    (hc : NewLRUWithTTL n opts w = some c) (ops : List (Op V))
    (hd : noDemotion c ops = true) :
    (run c ops).keys = refLRU n ops := by
  have hnil : c.keys = [] := by
    unfold NewLRUWithTTL at hc
    split at hc
    · cases hc
    · cases hc; rfl
  rw [keys_run_ref (Inv.new hc) ops hd, new_size hc, hnil]
  rfl

/-- Witness for C12: the sequence of `TestSetOutRange` (`Set a, b, c, a, d, e`
on capacity 3) yields the order `e, d, a`, as the reference LRU does. -/
theorem lru_refinement_witness :
    noDemotion cache3 [Op.set "a" (some 1) 3 0, Op.set "b" (some 2) 5 0,
      Op.set "c" (some 3) 2 0, Op.set "a" (some 5) 5 0, Op.set "d" (some 7) 1 0,
      Op.set "e" (some 10) 5 0] = true ∧
    (run cache3 [Op.set "a" (some 1) 3 0, Op.set "b" (some 2) 5 0,
      Op.set "c" (some 3) 2 0, Op.set "a" (some 5) 5 0, Op.set "d" (some 7) 1 0,
      Op.set "e" (some 10) 5 0]).keys =
      refLRU 3 [Op.set "a" (some 1) 3 0, Op.set "b" (some 2) 5 0,
        Op.set "c" (some 3) 2 0, Op.set "a" (some 5) 5 0, Op.set "d" (some 7) 1 0,
        (Op.set "e" (some 10) 5 0 : Op Nat)] ∧
    refLRU 3 [Op.set "a" (some 1) 3 0, Op.set "b" (some 2) 5 0,
        Op.set "c" (some 3) 2 0, Op.set "a" (some 5) 5 0, Op.set "d" (some 7) 1 0,
        (Op.set "e" (some 10) 5 0 : Op Nat)] = ["e", "d", "a"] :=
  ⟨by decide, lru_refinement 3 evictOpts "" cache3 rfl _ (by decide), by decide⟩

/-! ### C11: order of the recency list and time of the last touch -/

theorem touchLog_snoc (s : LRU V W) (ops : List (Op V)) (op : Op V) :
    touchLog s (ops ++ [op]) = touchLog s ops ++ [op.touches (run s ops)] := by
  induction ops generalizing s with
  | nil => rfl
  | cons o ops ih =>
    show o.touches s :: touchLog (step s o) (ops ++ [op]) = _
    rw [ih (step s o)]
    rfl

theorem noDemotion_snoc (s : LRU V W) (ops : List (Op V)) (op : Op V) :
    noDemotion s (ops ++ [op]) = (noDemotion s ops && op.noDemotion (run s ops)) := by
  induction ops generalizing s with
  | nil => simp [noDemotion, run]
  | cons o ops ih =>
    show (o.noDemotion s && noDemotion (step s o) (ops ++ [op])) = _
    rw [ih (step s o), ← Bool.and_assoc]
    rfl

theorem lastTouch_le (log : List (Option String)) (k : String) :
    lastTouch log k ≤ log.length := by
  unfold lastTouch
  omega

theorem lastTouch_snoc_self (log : List (Option String)) (k : String) :
    lastTouch (log ++ [some k]) k = log.length + 1 := by
  unfold lastTouch
  rw [List.reverse_append, List.reverse_singleton, List.singleton_append]
  simp [List.indexOf_cons]

theorem lastTouch_snoc_ne (log : List (Option String)) (x : Option String) (k : String)
    (hx : x ≠ some k) : lastTouch (log ++ [x]) k = lastTouch log k := by
  have hb : (x == some k) = false := by simpa using hx
  have hle : List.indexOf (some k) log.reverse ≤ log.reverse.length := by
    unfold List.indexOf
    exact List.findIdx_le_length _
  rw [List.length_reverse] at hle
  unfold lastTouch
  rw [List.reverse_append, List.reverse_singleton, List.singleton_append,
    List.indexOf_cons, hb]
  simp only [List.length_append, List.length_singleton, cond_false]
  omega

theorem pairwise_touch_same (log : List (Option String)) (l : List String)
    (x : Option String) (hp : (l.map (lastTouch log)).Pairwise (· > ·))
    (hx : ∀ k, x = some k → k ∉ l) :
    (l.map (lastTouch (log ++ [x]))).Pairwise (· > ·) := by
  have : l.map (lastTouch (log ++ [x])) = l.map (lastTouch log) := by
    apply List.map_congr_left
    intro k hk
    exact lastTouch_snoc_ne log x k (fun hc => hx k hc hk)
  rw [this]
  exact hp

theorem pairwise_touch_front (log : List (Option String)) (l l1 : List String) (k : String)
    (hp : (l.map (lastTouch log)).Pairwise (· > ·)) (hsub : l1.Sublist l) (hk : k ∉ l1) :
    ((k :: l1).map (lastTouch (log ++ [some k]))).Pairwise (· > ·) := by
  have hp1 : (l1.map (lastTouch log)).Pairwise (· > ·) := hp.sublist (hsub.map _)
  rw [List.map_cons, lastTouch_snoc_self, List.pairwise_cons]
  refine ⟨?_, pairwise_touch_same log l1 (some k) hp1 (fun k1 hk1 => by cases hk1; exact hk)⟩
  intro m hm
  rw [List.mem_map] at hm
  obtain ⟨k1, _, rfl⟩ := hm
  have := lastTouch_le (log ++ [some k]) k1
  have hne : (some k : Option String) ≠ some k1 := by
    intro hc
    cases hc
    exact hk ‹_›
  rw [lastTouch_snoc_ne log (some k) k1 hne]
  have := lastTouch_le log k1
  omega

/-- Counterexample for C11: capacity 3, `Set a` (ttl 10) at reading 0, `Set b`
(ttl 1) at reading 1, then `Get b` at reading 5, which reports `expired = true`
and moves `b` to the back.  The list reads `a, b`, but the last touch of `a` is
operation 1 and the last touch of `b` is operation 2: the order is not
decreasing in the time of the last touch. -/
theorem order_broken_by_demotion :
    (run cache3 [Op.set "a" (some 1) 10 0, Op.set "b" (some 2) 1 1, Op.get "b" 5]).keys
      = ["a", "b"] ∧
    ((run cache3 [Op.set "a" (some 1) 10 0, Op.set "b" (some 2) 1 1, Op.get "b" 5]).keys.map
      (lastTouch (touchLog cache3
        [Op.set "a" (some 1) 10 0, Op.set "b" (some 2) 1 1, Op.get "b" 5]))) = [1, 2] ∧
    ¬ ((run cache3 [Op.set "a" (some 1) 10 0, Op.set "b" (some 2) 1 1, Op.get "b" 5]).keys.map
      (lastTouch (touchLog cache3
        [Op.set "a" (some 1) 10 0, Op.set "b" (some 2) 1 1, Op.get "b" 5]))).Pairwise
        (· > ·) := by
  decide

/-- C11, amended (LRU order invariant): after any sequence of `Set`, `Get` and
deferred checks on a fresh cache in which no entry is demoted (no `Get` reports
`expired = true` and no deferred check moves an entry), the recency list read
front to back lists the resident keys in strictly decreasing order of the time
of their most recent touching operation (a `Set` on the key, or a `Get` on the
key that reported `expired = false`). -/
theorem order_without_demotion (n : Int) (opts : Options V W) (w : W) (c : LRU V W)
    (hc : NewLRUWithTTL n opts w = some c) (ops : List (Op V))
    (hd : noDemotion c ops = true) :
    ((run c ops).keys.map (lastTouch (touchLog c ops))).Pairwise (· > ·) := by
  have hc0 : Inv c := Inv.new hc
  induction ops using List.reverseRecOn with
  | nil =>
    have hnil : c.keys = [] := by
      unfold NewLRUWithTTL at hc
      split at hc
      · cases hc
      · cases hc; rfl
    rw [show run c [] = c from rfl, hnil]
    exact List.Pairwise.nil
  | append_singleton ops op ih =>
    rw [noDemotion_snoc, Bool.and_eq_true] at hd
    have hp := ih hd.1
    have hs : Inv (run c ops) := hc0.run ops
    have hnd := hs.keys_nodup
    rw [run_snoc, touchLog_snoc, keys_step hs op hd.2]
    cases op with
    | set k v ttl t =>
      simp only [refStep, Op.touches]
      split
      · exact pairwise_touch_front _ _ _ k hp (List.erase_sublist k _)
          (fun hm => (hnd.mem_erase_iff.mp hm).1 rfl)
      · rename_i hk
        split
        · exact pairwise_touch_front _ _ _ k hp (List.Sublist.refl _) hk
        · exact pairwise_touch_front _ _ _ k hp (List.dropLast_sublist _)
            (fun hm => hk (List.mem_of_mem_dropLast hm))
    | get k t =>
      have hget : ((run c ops).Get k t).2.2 = false := by
        simpa [Op.noDemotion] using hd.2
      have htouch : (Op.get k t : Op V).touches (run c ops) = some k := by
        simp [Op.touches, hget]
      rw [htouch]
      simp only [refStep]
      by_cases hk : k ∈ (run c ops).keys
      · rw [if_pos hk]
        exact pairwise_touch_front _ _ _ k hp (List.erase_sublist k _)
          (fun hm => (hnd.mem_erase_iff.mp hm).1 rfl)
      · rw [if_neg hk]
        exact pairwise_touch_same _ _ _ hp (fun k1 hk1 => by cases hk1; exact hk)
    | check k t =>
      simp only [refStep, Op.touches]
      exact pairwise_touch_same _ _ _ hp (fun k1 hk1 => by cases hk1)

/-- Witness for C11, amended: the sequence of `TestSetOutRange`, in which
nothing is demoted. -/
theorem order_without_demotion_witness :
    noDemotion cache3 [Op.set "a" (some 1) 3 0, Op.set "b" (some 2) 5 0,
      Op.set "c" (some 3) 2 0, Op.set "a" (some 5) 5 0, Op.set "d" (some 7) 1 0,
      Op.set "e" (some 10) 5 0] = true ∧
    ((run cache3 [Op.set "a" (some 1) 3 0, Op.set "b" (some 2) 5 0,
      Op.set "c" (some 3) 2 0, Op.set "a" (some 5) 5 0, Op.set "d" (some 7) 1 0,
      Op.set "e" (some 10) 5 0]).keys.map
      (lastTouch (touchLog cache3 [Op.set "a" (some 1) 3 0, Op.set "b" (some 2) 5 0,
        Op.set "c" (some 3) 2 0, Op.set "a" (some 5) 5 0, Op.set "d" (some 7) 1 0,
        Op.set "e" (some 10) 5 0]))).Pairwise (· > ·) :=
  ⟨by decide, order_without_demotion 3 evictOpts "" cache3 rfl _ (by decide)⟩

end LruTtl
